import Mathlib

/-!
# etl::vector — storage management core

A shallow embedding of `include/vector.hpp` (the storage base `vector_base`
and the container `vector`) and of `wrap_iter` from `include/iterator.hpp`
over an explicit heap, together with theorems about construction, growth,
copy, move, `reserve`, `clear`, `assign`, `insert`, destruction and the
storage invariant.

Conventions of the embedding

* A pointer is an element-granular address (`Int`); `nullptr` is address `0`.
  Pointer differences are `Int` (`ptrdiff_t`); a difference that is passed to
  or returned as a `size_type` goes through `toSize` (reduction modulo `2^64`).
* The heap records which addresses hold a live object, and keeps a
  chronological trace of every allocator call, so that statements such as
  "destroy is called once on each element, in reverse order" are statements
  about the trace.
* The `const_reference` argument of `push_back` is a `Ref`: a slot of the heap
  or an object outside it, read at the point where the source reads it.
* A member function takes the heap and the object and returns an `Outcome`:
  normal return, an exception that propagates, or undefined behaviour (a read
  of a slot that holds no object, or a pointer loop whose bound lies behind
  its start).
-/

namespace etl

/-- The null pointer. Pointers are element-granular addresses of type `Int`. -/
def nullptr : Int := 0

/-- Conversion of a pointer difference to the 64-bit unsigned `size_type`. -/
def toSize (d : Int) : Nat := (d % 18446744073709551616).toNat

/-- One call into the allocator (or a direct destructor call), as recorded in the trace. -/
inductive Event where
  | allocate (p : Int) (n : Nat)
  | deallocate (p : Int) (n : Nat)
  | construct (p : Int)
  | destroy (p : Int)
  | dtor (p : Int)
deriving DecidableEq, Repr

/-- The heap: live objects by address, the allocator's next free address, the number of
element constructions that still succeed before one throws (`none`: construction never
throws), and the trace of allocator calls, oldest first. -/
structure Heap (T : Type) where
  mem : Int → Option T
  next : Int
  budget : Option Nat
  log : List Event

/-- Result of running a piece of code: normal return, a propagating exception, or
undefined behaviour. -/
inductive Outcome (ε α : Type) where
  | ok (a : α)
  | thrown (e : ε)
  | undefined

variable {T : Type}

/-- Modelled from the spec: `allocator.hpp` is not among the sources. `allocate(n)` returns
storage for `n` elements; the model hands out fresh, never reused addresses and keeps one
unused cell between two allocations, so that distinct allocations (also empty ones) have
distinct addresses. -/
def allocate (h : Heap T) (n : Nat) : Heap T × Int :=
  ({ h with next := h.next + n + 1, log := h.log ++ [Event.allocate h.next n] }, h.next)

/-- Modelled from the spec: `deallocate(p, n)` releases storage; the model records the call. -/
def deallocate (h : Heap T) (p : Int) (n : Nat) : Heap T :=
  { h with log := h.log ++ [Event.deallocate p n] }

/-- Modelled from the spec: `construct(p, args...)` constructs a value in place at `p`.
The element constructor throws when the heap's construction budget is exhausted
(a value type whose copy/move constructor throws on the k-th invocation). -/
def construct (h : Heap T) (p : Int) (v : T) : Except (Heap T) (Heap T) :=
  match h.budget with
  | some 0 => .error { h with budget := none }
  | some (k + 1) =>
      .ok { h with mem := fun a => if a = p then some v else h.mem a,
                   budget := some k, log := h.log ++ [Event.construct p] }
  | none =>
      .ok { h with mem := fun a => if a = p then some v else h.mem a,
                   log := h.log ++ [Event.construct p] }

/-- Modelled from the spec: `destroy(p)` invokes the destructor of the value at `p`. -/
def destroy (h : Heap T) (p : Int) : Heap T :=
  { h with mem := fun a => if a = p then none else h.mem a, log := h.log ++ [Event.destroy p] }

/-- A direct destructor call `p->~value_type()`. -/
def dtor (h : Heap T) (p : Int) : Heap T :=
  { h with mem := fun a => if a = p then none else h.mem a, log := h.log ++ [Event.dtor p] }

/-- The storage base: `allocator_`, `begin_`, `capacity_`, `end_` (declaration order).
An allocator instance is represented by an identifier that can be compared. -/
structure vector_base where
  allocator_ : Nat
  begin_ : Int
  capacity_ : Int
  end_ : Int
deriving DecidableEq, Repr

/-- The container derives privately from the storage base and adds no field. -/
abbrev vector := vector_base

/-- `vector_base(allocator, n)`. -/
def vector_base.ctor (h : Heap T) (allocator : Nat) (n : Nat) : Heap T × vector_base :=
  ((allocate h n).1,
   { allocator_ := allocator, begin_ := (allocate h n).2,
     capacity_ := (allocate h n).2 + n, end_ := (allocate h n).2 })

/-- `~vector_base()`: `allocator_.deallocate(begin_, end_ - begin_)`. -/
def vector_base.dtor (h : Heap T) (b : vector_base) : Heap T :=
  deallocate h b.begin_ (toSize (b.end_ - b.begin_))

/-- `vector_base(vector_base&& other)`: the members are initialised from `other`, then the
body assigns `begin_ = end_ = capacity_ = nullptr` to the members of the new object.
Returns (new object, other). -/
def vector_base.move_ctor (other : vector_base) : vector_base × vector_base :=
  ({ allocator_ := other.allocator_, begin_ := nullptr, capacity_ := nullptr, end_ := nullptr },
   other)

/-- The loop of `destruct_at_end`: `alloc_traits::destroy(allocator_, --soon_to_be_end)`,
run `k` times. -/
def vector_base.destruct_loop : Nat → Heap T → Int → Heap T
  | 0, h, _ => h
  | k + 1, h, soon_to_be_end =>
      vector_base.destruct_loop k (destroy h (soon_to_be_end - 1)) (soon_to_be_end - 1)

/-- `destruct_at_end(new_last)`. The loop `while (new_last != soon_to_be_end)` decrements
`soon_to_be_end` from `end_`; it meets `new_last` after `end_ - new_last` rounds when
`new_last ≤ end_`, and never otherwise. -/
def vector_base.destruct_at_end (h : Heap T) (b : vector_base) (new_last : Int) :
    Outcome (Heap T × vector_base) (Heap T × vector_base) :=
  if new_last ≤ b.end_ then
    .ok (vector_base.destruct_loop (b.end_ - new_last).toNat h b.end_,
         { b with end_ := new_last })
  else .undefined

/-- `vector_base::clear()`: `destruct_at_end(begin_)`. -/
def vector_base.clear (h : Heap T) (b : vector_base) :
    Outcome (Heap T × vector_base) (Heap T × vector_base) :=
  vector_base.destruct_at_end h b b.begin_

/-- `copy_assign_alloc(other)`. -/
def vector_base.copy_assign_alloc (h : Heap T) (b other : vector_base) :
    Outcome (Heap T × vector_base) (Heap T × vector_base) :=
  if b.allocator_ ≠ other.allocator_ then
    match vector_base.clear h b with
    | .ok (h1, b1) =>
        .ok (deallocate h1 b1.begin_ (toSize (b1.capacity_ - b1.begin_)),
             { allocator_ := other.allocator_, begin_ := nullptr, capacity_ := nullptr,
               end_ := nullptr })
    | r => r
  else .ok (h, { b with allocator_ := other.allocator_ })

/-- `vector_base::swap(other)`: exchanges `begin_`, `end_`, `capacity_`.
Returns (this, other). -/
def vector_base.swap (b other : vector_base) : vector_base × vector_base :=
  ({ b with begin_ := other.begin_, end_ := other.end_, capacity_ := other.capacity_ },
   { other with begin_ := b.begin_, end_ := b.end_, capacity_ := b.capacity_ })

/-- `size()`: `static_cast<size_type>(end_ - begin_)`. -/
def vector.size (b : vector) : Nat := toSize (b.end_ - b.begin_)

/-- `capacity()`: `capacity_ - begin_`, returned as `size_type`. -/
def vector.capacity (b : vector) : Nat := toSize (b.capacity_ - b.begin_)

/-- `empty()`: `end_ == begin_`. -/
def vector.empty (b : vector) : Bool := decide (b.end_ = b.begin_)

/-- `operator[](n)`: `assert(n < size())`, then `begin_[n]`. `none` when the assertion
fails or the slot holds no object. -/
def vector.subscript (h : Heap T) (b : vector) (n : Nat) : Option T :=
  if n < vector.size b then h.mem (b.begin_ + n) else none

/-- `vector(allocator)`: `base(allocator, 4)`. -/
def vector.ctor_default (h : Heap T) (allocator : Nat) : Heap T × vector :=
  vector_base.ctor h allocator 4

/-- The catch block of the constructors: `while (end_-- > begin_) destroy(end_);`.
The comparison reads `end_` before the decrement, `destroy` receives it after. The round
count is the number of times the comparison holds; the failing comparison still decrements. -/
def vector.unwind : Nat → Heap T → vector → Heap T × vector
  | 0, h, b => (h, { b with end_ := b.end_ - 1 })
  | k + 1, h, b =>
      vector.unwind k (destroy h (b.end_ - 1)) { b with end_ := b.end_ - 1 }

/-- The handler `catch (...) { while (end_-- > begin_) destroy(end_); throw; }` followed by
the destructor of the base sub-object, which runs while the exception leaves the
constructor. Yields the heap at the point where the exception reaches the caller. -/
def vector.ctor_catch (h : Heap T) (b : vector) : Heap T :=
  vector_base.dtor (vector.unwind (b.end_ - b.begin_).toNat h b).1
    (vector.unwind (b.end_ - b.begin_).toNat h b).2

/-- The try block of `vector(n, value, allocator)`:
`for (i = 0; i < n; ++i) construct(end_++, value);` with `k` rounds left. `end_++` is
evaluated before `construct` is entered, so `end_` is already advanced when it throws. -/
def vector.fill_loop (value : T) : Nat → Heap T → vector →
    Outcome (Heap T × vector) (Heap T × vector)
  | 0, h, b => .ok (h, b)
  | k + 1, h, b =>
      match construct h b.end_ value with
      | .ok h1 => vector.fill_loop value k h1 { b with end_ := b.end_ + 1 }
      | .error h1 => .thrown (h1, { b with end_ := b.end_ + 1 })

/-- `vector(n, value, allocator)`. -/
def vector.ctor_fill (h : Heap T) (n : Nat) (value : T) (allocator : Nat) :
    Outcome (Heap T) (Heap T × vector) :=
  match vector.fill_loop value n (vector_base.ctor h allocator n).1
      (vector_base.ctor h allocator n).2 with
  | .ok r => .ok r
  | .thrown (h1, b1) => .thrown (vector.ctor_catch h1 b1)
  | .undefined => .undefined

/-- The try block of `vector(vector const& other)`:
`for (; first != last; ++first) construct(end_++, *first);` with `k` rounds left. -/
def vector.copy_loop : Nat → Heap T → vector → Int →
    Outcome (Heap T × vector) (Heap T × vector)
  | 0, h, b, _ => .ok (h, b)
  | k + 1, h, b, first =>
      match h.mem first with
      | none => .undefined
      | some x =>
          match construct h b.end_ x with
          | .ok h1 => vector.copy_loop k h1 { b with end_ := b.end_ + 1 } (first + 1)
          | .error h1 => .thrown (h1, { b with end_ := b.end_ + 1 })

/-- `vector(vector const& other)`: `base(other.allocator_, other.size())`, then the copy
loop from `other.begin_` to `other.end_`. -/
def vector.ctor_copy (h : Heap T) (other : vector) : Outcome (Heap T) (Heap T × vector) :=
  if other.begin_ ≤ other.end_ then
    match vector.copy_loop (other.end_ - other.begin_).toNat
        (vector_base.ctor h other.allocator_ (vector.size other)).1
        (vector_base.ctor h other.allocator_ (vector.size other)).2 other.begin_ with
    | .ok r => .ok r
    | .thrown (h1, b1) => .thrown (vector.ctor_catch h1 b1)
    | .undefined => .undefined
  else .undefined

/-- `vector(vector&& other)`: `base(std::move(other))`. Returns (new object, other). -/
def vector.move_ctor (other : vector) : vector × vector :=
  vector_base.move_ctor other

/-- The loop of `reserve`: `construct(tmp.end_++, std::move(*it)); it->~value_type();`
with `k` rounds left. Carries the heap and `tmp`. -/
def vector.reserve_loop : Nat → Heap T → Int → vector_base →
    Outcome (Heap T × vector_base) (Heap T × vector_base)
  | 0, h, _, tmp => .ok (h, tmp)
  | k + 1, h, it, tmp =>
      match h.mem it with
      | none => .undefined
      | some x =>
          match construct h tmp.end_ x with
          | .ok h1 =>
              vector.reserve_loop k (dtor h1 it) (it + 1) { tmp with end_ := tmp.end_ + 1 }
          | .error h1 => .thrown (h1, { tmp with end_ := tmp.end_ + 1 })

/-- `reserve(n)`. After the loop `base::swap(tmp)`, then `tmp` goes out of scope and its
destructor runs; when `construct` throws, only the destructor of `tmp` runs. -/
def vector.reserve (h : Heap T) (b : vector) (n : Nat) :
    Outcome (Heap T × vector) (Heap T × vector) :=
  if n ≤ vector.capacity b then .ok (h, b)
  else if b.begin_ ≤ b.end_ then
    match vector.reserve_loop (b.end_ - b.begin_).toNat (vector_base.ctor h b.allocator_ n).1
        b.begin_ (vector_base.ctor h b.allocator_ n).2 with
    | .ok (h2, tmp2) =>
        .ok (vector_base.dtor h2 (vector_base.swap b tmp2).2, (vector_base.swap b tmp2).1)
    | .thrown (h2, tmp2) => .thrown (vector_base.dtor h2 tmp2, b)
    | .undefined => .undefined
  else .undefined

/-- `vector::clear()`: `base::clear()`. -/
def vector.clear (h : Heap T) (b : vector) : Outcome (Heap T × vector) (Heap T × vector) :=
  vector_base.clear h b

/-- What a `const_reference` argument refers to: a slot of the element heap (such as an
element of a vector, `v[0]`), or an object that lives elsewhere (a local variable, a
temporary), given by its value. -/
inductive Ref (T : Type) where
  | slot (p : Int)
  | object (v : T)

/-- Reading through a reference at the moment the referenced object is used. A slot yields
the object it holds at that moment; `none` is the read of a slot that holds no object. -/
def Ref.read (h : Heap T) : Ref T → Option T
  | .slot p => h.mem p
  | .object v => some v

/-- `push_back(const_reference value)`. The reference is read inside
`construct(&begin_[size()], value)`, after `reserve` has run: when `reserve` reallocates,
the old slots have been moved from, destroyed and deallocated by then. -/
def vector.push_back (h : Heap T) (b : vector) (value : Ref T) :
    Outcome (Heap T × vector) (Heap T × vector) :=
  match (if vector.capacity b ≤ vector.size b then
      vector.reserve h b
        (if vector.size b ≠ 0 then (2 * vector.size b) % 18446744073709551616 else 8)
    else .ok (h, b)) with
  | .ok (h1, b1) =>
      match Ref.read h1 value with
      | none => .undefined
      | some v =>
          match construct h1 (b1.begin_ + vector.size b1) v with
          | .ok h2 => .ok (h2, { b1 with end_ := b1.end_ + 1 })
          | .error h2 => .thrown (h2, b1)
  | r => r

/-- The loop of `assign(first, last)`: `push_back(*first)` with `k` rounds left; `*first`
is a reference to the slot `first`. -/
def vector.assign_loop : Nat → Heap T → vector → Int →
    Outcome (Heap T × vector) (Heap T × vector)
  | 0, h, b, _ => .ok (h, b)
  | k + 1, h, b, first =>
      match vector.push_back h b (Ref.slot first) with
      | .ok (h1, b1) => vector.assign_loop k h1 b1 (first + 1)
      | r => r

/-- `assign(first, last)` for pointer iterators: `clear()`, then `push_back(*first)` for
each position from `first` up to `last`. -/
def vector.assign (h : Heap T) (b : vector) (first last : Int) :
    Outcome (Heap T × vector) (Heap T × vector) :=
  match vector.clear h b with
  | .ok (h1, b1) =>
      if first ≤ last then vector.assign_loop (last - first).toNat h1 b1 first
      else .undefined
  | r => r

/-- `assign(count, value)`: the body is empty. -/
def vector.assign_fill (h : Heap T) (b : vector) (_count : Nat) (_value : T) :
    Heap T × vector := (h, b)

/-- The heap together with the vector objects of the program, addressed by the location of
the object (which is what `this != &other` compares). -/
structure Store (T : Type) where
  heap : Heap T
  objs : Nat → vector

/-- `operator=(vector const& other)` for the objects at locations `self` and `other`. -/
def vector.copy_assign (s : Store T) (self other : Nat) : Outcome (Store T) (Store T) :=
  if self ≠ other then
    match vector_base.copy_assign_alloc s.heap (s.objs self) (s.objs other) with
    | .ok (h1, b1) =>
        match vector.assign h1 b1 (s.objs other).begin_ (s.objs other).end_ with
        | .ok (h2, b2) =>
            .ok { heap := h2, objs := fun a => if a = self then b2 else s.objs a }
        | .thrown (h2, b2) =>
            .thrown { heap := h2, objs := fun a => if a = self then b2 else s.objs a }
        | .undefined => .undefined
    | .thrown (h1, b1) =>
        .thrown { heap := h1, objs := fun a => if a = self then b1 else s.objs a }
    | .undefined => .undefined
  else .ok s

/-- The loop of `destroy_elements`: `allocator_.destroy(it)` for `k` consecutive slots. -/
def vector.destroy_loop : Nat → Heap T → Int → Heap T
  | 0, h, _ => h
  | k + 1, h, it => vector.destroy_loop k (destroy h it) (it + 1)

/-- `destroy_elements()`: `for (it = begin_; it != capacity_; ++it) destroy(it);`
then `capacity_ = begin_`. -/
def vector.destroy_elements (h : Heap T) (b : vector) :
    Outcome (Heap T × vector) (Heap T × vector) :=
  if b.begin_ ≤ b.capacity_ then
    .ok (vector.destroy_loop (b.capacity_ - b.begin_).toNat h b.begin_,
         { b with capacity_ := b.begin_ })
  else .undefined

/-- `~vector()`: `destroy_elements()`, then the destructor of the base sub-object. -/
def vector.dtor (h : Heap T) (b : vector) : Outcome (Heap T) (Heap T) :=
  match vector.destroy_elements h b with
  | .ok (h1, b1) => .ok (vector_base.dtor h1 b1)
  | .thrown (h1, _) => .thrown h1
  | .undefined => .undefined

/-- `operator=(vector&& other)`: `clear(); std::swap(*this, other);`.
`std::swap(a, b)` is the standard library's generic
`T tmp(std::move(a)); a = std::move(b); b = std::move(tmp);` for `T = vector`: no overload
for `vector` exists and the call is qualified. Both assignments inside it are
`operator=(vector&&)` again. The recursion is bounded by `fuel`; `none` means that the
call has not returned within `fuel` nested calls. Returns the heap, `*this` and `other`. -/
def vector.move_assign : Nat → Heap T → vector → vector →
    Option (Outcome (Heap T) (Heap T × vector × vector))
  | 0, _, _, _ => none
  | fuel + 1, h, self, other =>
      match vector.clear h self with
      | .ok (h1, self1) =>
          -- std::swap(*this, other): `vector tmp(std::move(*this));` gives
          -- (tmp, *this) = vector.move_ctor self1, then `*this = std::move(other);`
          match vector.move_assign fuel h1 (vector.move_ctor self1).2 other with
          | some (.ok (h2, self2, other2)) =>
              -- `other = std::move(tmp);`
              match vector.move_assign fuel h2 other2 (vector.move_ctor self1).1 with
              | some (.ok (h3, other3, tmp3)) =>
                  -- `tmp` goes out of scope
                  match vector.dtor h3 tmp3 with
                  | .ok h4 => some (.ok (h4, self2, other3))
                  | .thrown h4 => some (.thrown h4)
                  | .undefined => some .undefined
              | r => r
          | r => r
      | .thrown (h1, _) => some (.thrown h1)
      | .undefined => some .undefined

/-- `wrap_iter<Iterator>` of `include/iterator.hpp` for a pointer `Iterator`: the one member
`iterator_`, the wrapped pointer. -/
structure wrap_iter where
  iterator_ : Int
deriving DecidableEq, Repr

/-- `wrap_iter::base()`: `return iterator_;`. -/
def wrap_iter.base (it : wrap_iter) : Int := it.iterator_

/-- `wrap_iter::operator++()`: `++iterator_; return *this;`. -/
def wrap_iter.pre_increment (it : wrap_iter) : wrap_iter := { iterator_ := it.iterator_ + 1 }

/-- `wrap_iter::operator--()`: `++iterator_; return *this;` (the body in the source is the
one of `operator++`). -/
def wrap_iter.pre_decrement (it : wrap_iter) : wrap_iter := { iterator_ := it.iterator_ + 1 }

/-- `vector::begin()`: `iterator(base::begin_)`. -/
def vector.begin (b : vector) : wrap_iter := { iterator_ := b.begin_ }

/-- `vector::end()`: `iterator(base::end_)`. -/
def vector.end_iter (b : vector) : wrap_iter := { iterator_ := b.end_ }

/-- Modelled from the spec: a `construct(p, value)` whose target `p` is not an element slot.
The element constructor runs (and throws when the construction budget is exhausted), but no
slot of the element heap receives the value and the trace has no slot to record. -/
def construct_off_slot (h : Heap T) (_value : T) : Except (Heap T) (Heap T) :=
  match h.budget with
  | some 0 => .error { h with budget := none }
  | some (k + 1) => .ok { h with budget := some k }
  | none => .ok h

/-- `insert(const_iterator position, const_reference value)`.
`p = begin_ + (position - begin())`, the difference being that of the wrapped pointers.
The only branch with a body is `end_ < capacity_` and `p == end_`: it runs
`construct(&base::end_, value); ++base::end_;`. The argument `&base::end_` designates the
member `end_` of the vector object, not the slot that `end_` points to (`push_back` passes
`&base::begin_[size()]`), so no element slot is constructed; what the call does to the
object itself lies outside the element heap, and the model keeps `end_` as the pointer it
was before `++base::end_`. No path has a `return` statement: the returned iterator is
`none`. -/
def vector.insert (h : Heap T) (b : vector) (position : wrap_iter) (value : T) :
    Outcome (Heap T × vector) (Heap T × vector × Option wrap_iter) :=
  if b.end_ < b.capacity_ then
    if b.begin_ + (position.base - (vector.begin b).base) = b.end_ then
      match construct_off_slot h value with
      | .ok h1 => .ok (h1, { b with end_ := b.end_ + 1 }, none)
      | .error h1 => .thrown (h1, b)
    else .ok (h, b, none)
  else .ok (h, b, none)

/-- `insert(const_iterator position, value_type&& value)`: the body is empty and has no
`return` statement. -/
def vector.insert_rvalue (h : Heap T) (b : vector) (_position : wrap_iter) (_value : T) :
    Heap T × vector × Option wrap_iter := (h, b, none)

/-- `insert(const_iterator position, size_type n, const_reference value)`: the body is empty
and has no `return` statement. -/
def vector.insert_fill (h : Heap T) (b : vector) (_position : wrap_iter) (_n : Nat)
    (_value : T) : Heap T × vector × Option wrap_iter := (h, b, none)

/-! ## Vocabulary of the statements -/

/-- No element construction throws during the next `n` constructions. -/
def Heap.canConstruct (h : Heap T) (n : Nat) : Prop := ∀ k, h.budget = some k → n ≤ k

/-- Every slot of `[begin_, end_)` holds an object. -/
def vector.live (h : Heap T) (b : vector) : Prop :=
  ∀ i : Nat, (i : Int) < b.end_ - b.begin_ → (h.mem (b.begin_ + i)).isSome

/-- The element sequence of a vector: the slots `begin_[0]`, ..., `begin_[size() - 1]`. -/
def vector.contents (h : Heap T) (b : vector) : List (Option T) :=
  (List.range (vector.size b)).map (fun i : Nat => h.mem (b.begin_ + (i : Int)))

/-- A caller that runs `push_back(x)` for each argument `x` of a list, in order. -/
def vector.push_all : List (Ref T) → Heap T → vector →
    Outcome (Heap T × vector) (Heap T × vector)
  | [], h, b => .ok (h, b)
  | x :: xs, h, b =>
      match vector.push_back h b x with
      | .ok (h1, b1) => vector.push_all xs h1 b1
      | r => r

/-- The object that `value` refers to is not one of the elements `[begin_, end_)` of `b`: it
lives outside the element heap, or in a slot of allocated memory outside that range. -/
def Ref.outside (h : Heap T) (b : vector) : Ref T → Prop
  | .slot p => p < h.next ∧ (p < b.begin_ ∨ b.end_ ≤ p)
  | .object _ => True

/-- The storage invariant `begin_ ≤ end_ ≤ capacity_`, for a storage shorter than `2^64`
elements (so that `capacity()` is `capacity_ - begin_`). -/
def vector.inv (b : vector) : Prop :=
  b.begin_ ≤ b.end_ ∧ b.end_ ≤ b.capacity_ ∧ b.capacity_ - b.begin_ < 18446744073709551616

/-- The state in which a member function leaves the object, whether it returns or lets an
exception propagate; `none` when its behaviour is undefined. -/
def Outcome.final {σ : Type} : Outcome σ σ → Option σ
  | .ok a => some a
  | .thrown e => some e
  | .undefined => none

/-- The vector states reachable from a constructor that returns (default, fill, copy) by the
public mutators `push_back`, `reserve`, `clear`, `assign(first, last)`,
`assign(count, value)` and copy assignment, each run on an arbitrary heap and either
returning or propagating an exception. Counts passed as `size_type` are below `2^64`; a
`push_back` happens at `size() < 2^63` and an assigned range has at most `2^63` elements
(no object is longer than `PTRDIFF_MAX`). -/
inductive Reachable (T : Type) : vector → Prop where
  | ctor_default (h : Heap T) (allocator : Nat) :
      Reachable T (vector.ctor_default h allocator).2
  | ctor_fill (h : Heap T) (n : Nat) (value : T) (allocator : Nat) (h1 : Heap T) (b : vector) :
      n < 18446744073709551616 → vector.ctor_fill h n value allocator = .ok (h1, b) →
      Reachable T b
  | ctor_copy (h : Heap T) (other : vector) (h1 : Heap T) (b : vector) :
      Reachable T other → vector.ctor_copy h other = .ok (h1, b) → Reachable T b
  | push_back (h : Heap T) (b : vector) (value : Ref T) (r : Heap T × vector) :
      Reachable T b → b.end_ - b.begin_ < 9223372036854775808 →
      (vector.push_back h b value).final = some r → Reachable T r.2
  | reserve (h : Heap T) (b : vector) (n : Nat) (r : Heap T × vector) :
      Reachable T b → n < 18446744073709551616 →
      (vector.reserve h b n).final = some r → Reachable T r.2
  | clear (h : Heap T) (b : vector) (r : Heap T × vector) :
      Reachable T b → (vector.clear h b).final = some r → Reachable T r.2
  | assign (h : Heap T) (b : vector) (first last : Int) (r : Heap T × vector) :
      Reachable T b → last - first ≤ 9223372036854775808 →
      (vector.assign h b first last).final = some r → Reachable T r.2
  | assign_fill (h : Heap T) (b : vector) (count : Nat) (value : T) :
      Reachable T b → Reachable T (vector.assign_fill h b count value).2
  | copy_assign (s : Store T) (self other : Nat) (s1 : Store T) :
      Reachable T (s.objs self) → Reachable T (s.objs other) →
      (s.objs other).end_ - (s.objs other).begin_ ≤ 9223372036854775808 →
      (vector.copy_assign s self other).final = some s1 → Reachable T (s1.objs self)

/-! ## Example states -/

/-- An empty heap whose allocator starts at address 1 and whose constructions never throw. -/
def emptyHeap : Heap Nat := { mem := fun _ => none, next := 1, budget := none, log := [] }

/-- The empty heap with a value type whose third construction throws. -/
def thirdThrowsHeap : Heap Nat := { mem := fun _ => none, next := 1, budget := some 2, log := [] }

/-- A heap with two allocations: `[1, 4)` holding `7, 8` in its first two slots, and
`[5, 7)` holding `9, 10`. -/
def demoHeap : Heap Nat :=
  { mem := fun a => if a = 1 then some 7 else if a = 2 then some 8 else if a = 5 then some 9
                    else if a = 6 then some 10 else none,
    next := 8, budget := none, log := [] }

/-- The vector on the first allocation of `demoHeap`: size 2, capacity 3. -/
def demoA : vector := { allocator_ := 0, begin_ := 1, capacity_ := 4, end_ := 3 }

/-- The vector on the second allocation of `demoHeap`: size 2, capacity 2, another allocator. -/
def demoB : vector := { allocator_ := 1, begin_ := 5, capacity_ := 7, end_ := 7 }

/-- The two vectors as objects at locations 0 and 1. -/
def demoStore : Store Nat :=
  { heap := demoHeap, objs := fun c => if c = 0 then demoA else demoB }

/-! ## Auxiliary lemmas -/

theorem toSize_cast (n : Nat) (hn : n < 18446744073709551616) : toSize (n : Int) = n := by
  unfold toSize
  omega

theorem toSize_of_bounds (d : Int) (h0 : 0 ≤ d) (h1 : d < 18446744073709551616) :
    (toSize d : Int) = d := by
  unfold toSize
  omega

theorem construct_ok (h : Heap T) (p : Int) (v : T) (k : Nat) (hc : h.canConstruct (k + 1)) :
    ∃ h1, construct h p v = .ok h1 ∧ h1.mem = (fun a => if a = p then some v else h.mem a) ∧
      h1.next = h.next ∧ h1.log = h.log ++ [Event.construct p] ∧ h1.canConstruct k ∧
      (h.budget = none → h1.budget = none) := by
  unfold construct
  cases hb : h.budget with
  | none =>
      refine ⟨_, rfl, rfl, rfl, rfl, ?_, fun _ => by simp [hb]⟩
      intro j hj
      simp [hb] at hj
  | some m =>
      cases m with
      | zero => exact absurd (hc 0 hb) (by omega)
      | succ m =>
          refine ⟨_, rfl, rfl, rfl, rfl, ?_, fun h => by simp at h⟩
          intro j hj
          simp at hj
          have := hc _ hb
          omega

theorem fill_loop_ok (value : T) : ∀ (k : Nat) (h : Heap T) (b : vector), h.canConstruct k →
    ∃ h1, vector.fill_loop value k h b = .ok (h1, { b with end_ := b.end_ + k }) ∧
      (∀ i : Nat, i < k → h1.mem (b.end_ + i) = some value) ∧
      (∀ a : Int, (a < b.end_ ∨ b.end_ + k ≤ a) → h1.mem a = h.mem a) ∧
      h1.next = h.next ∧
      h1.log = h.log ++ (List.range k).map (fun i : Nat => Event.construct (b.end_ + (i : Int))) := by
  intro k
  induction k with
  | zero =>
      intro h b _
      refine ⟨h, ?_, ?_, ?_, rfl, ?_⟩
      · simp [vector.fill_loop]
      · intro i hi; omega
      · intro a _; rfl
      · simp
  | succ k ih =>
      intro h b hc
      obtain ⟨h1, e1, m1, n1, l1, c1, _⟩ := construct_ok h b.end_ value k hc
      obtain ⟨h2, e2, m2, f2, n2, l2⟩ := ih h1 { b with end_ := b.end_ + 1 } c1
      dsimp only at e2 m2 f2 l2
      refine ⟨h2, ?_, ?_, ?_, ?_, ?_⟩
      · simp only [vector.fill_loop, e1, e2]
        simp [add_assoc, add_comm]
        omega
      · intro i hi
        cases i with
        | zero =>
            have := f2 b.end_ (Or.inl (by omega))
            simp [this, m1]
        | succ i =>
            have := m2 i (by omega)
            simp only [Nat.cast_add, Nat.cast_one] at this ⊢
            rw [← this]; congr 1; omega
      · intro a ha
        rw [f2 a (by push_cast at ha; omega), m1]
        have : a ≠ b.end_ := by push_cast at ha; omega
        simp [this]
      · rw [n2, n1]
      · rw [l2, l1, List.range_succ_eq_map]
        simp [List.map_map, Function.comp_def, add_assoc, add_comm]
        intro a _; omega

theorem destruct_loop_spec : ∀ (k : Nat) (h : Heap T) (s : Int),
    (vector_base.destruct_loop k h s).log =
        h.log ++ (List.range k).map (fun i : Nat => Event.destroy (s - 1 - (i : Int))) ∧
      (∀ a : Int, (vector_base.destruct_loop k h s).mem a =
        if s - k ≤ a ∧ a < s then none else h.mem a) ∧
      (vector_base.destruct_loop k h s).next = h.next ∧
      (vector_base.destruct_loop k h s).budget = h.budget := by
  intro k
  induction k with
  | zero =>
      intro h s
      refine ⟨by simp [vector_base.destruct_loop], ?_, rfl, rfl⟩
      intro a
      have : ¬ (s - ((0 : Nat) : Int) ≤ a ∧ a < s) := by omega
      simp only [vector_base.destruct_loop, if_neg this]
  | succ k ih =>
      intro h s
      obtain ⟨l, m, n, b⟩ := ih (destroy h (s - 1)) (s - 1)
      simp only [vector_base.destruct_loop]
      refine ⟨?_, ?_, ?_, ?_⟩
      · rw [l, List.range_succ_eq_map]
        simp [destroy, List.map_map, Function.comp_def]
        intro a _; omega
      · intro a
        rw [m a]
        simp only [destroy]
        push_cast
        split_ifs <;> first | rfl | (exfalso; omega)
      · rw [n]; rfl
      · rw [b]; rfl

theorem unwind_spec : ∀ (k : Nat) (h : Heap T) (b : vector),
    (vector.unwind k h b).2 = { b with end_ := b.end_ - k - 1 } ∧
    (vector.unwind k h b).1.log =
        h.log ++ (List.range k).map (fun i : Nat => Event.destroy (b.end_ - 1 - (i : Int))) := by
  intro k
  induction k with
  | zero => intro h b; simp [vector.unwind]
  | succ k ih =>
      intro h b
      obtain ⟨e, l⟩ := ih (destroy h (b.end_ - 1)) { b with end_ := b.end_ - 1 }
      simp only [vector.unwind]
      refine ⟨?_, ?_⟩
      · rw [e]; simp; omega
      · rw [l, List.range_succ_eq_map]
        simp [destroy, List.map_map, Function.comp_def]
        intro a _; omega

theorem fill_loop_throw (value : T) : ∀ (k n : Nat) (h : Heap T) (b : vector),
    h.budget = some k → k < n →
    ∃ h1, vector.fill_loop value n h b = .thrown (h1, { b with end_ := b.end_ + k + 1 }) ∧
      h1.log = h.log ++ (List.range k).map (fun i : Nat => Event.construct (b.end_ + (i : Int))) ∧
      h1.mem (b.end_ + k) = h.mem (b.end_ + k) := by
  intro k
  induction k with
  | zero =>
      intro n h b hb hn
      obtain ⟨m, rfl⟩ : ∃ m, n = m + 1 := ⟨n - 1, by omega⟩
      refine ⟨{ h with budget := none }, ?_, by simp, by simp⟩
      simp [vector.fill_loop, construct, hb]
  | succ k ih =>
      intro n h b hb hn
      obtain ⟨m, rfl⟩ : ∃ m, n = m + 1 := ⟨n - 1, by omega⟩
      have e1 : construct h b.end_ value = .ok { h with
          mem := fun a => if a = b.end_ then some value else h.mem a,
          budget := some k, log := h.log ++ [Event.construct b.end_] } := by
        simp [construct, hb]
      obtain ⟨h2, e2, l2, m2⟩ := ih m { h with
          mem := fun a => if a = b.end_ then some value else h.mem a,
          budget := some k, log := h.log ++ [Event.construct b.end_] }
        { b with end_ := b.end_ + 1 } rfl (by omega)
      dsimp only at e2 l2 m2
      refine ⟨h2, ?_, ?_, ?_⟩
      · simp only [vector.fill_loop, e1, e2]
        simp; omega
      · rw [l2, List.range_succ_eq_map]
        simp [List.map_map, Function.comp_def, add_assoc, add_comm]
        intro a _; omega
      · have e : b.end_ + ((k + 1 : Nat) : Int) = b.end_ + 1 + k := by push_cast; omega
        rw [e, m2]
        have : b.end_ + 1 + (k : Int) ≠ b.end_ := by omega
        simp [this]

theorem construct_noThrow (h : Heap T) (p : Int) (v : T) (hb : h.budget = none) :
    construct h p v = .ok { h with mem := fun a => if a = p then some v else h.mem a,
                                   log := h.log ++ [Event.construct p] } := by
  simp [construct, hb]

theorem size_cast (b : vector) (h0 : b.begin_ ≤ b.end_)
    (h1 : b.end_ - b.begin_ < 18446744073709551616) :
    (vector.size b : Int) = b.end_ - b.begin_ := by
  unfold vector.size toSize
  omega

theorem capacity_cast (b : vector) (h0 : b.begin_ ≤ b.capacity_)
    (h1 : b.capacity_ - b.begin_ < 18446744073709551616) :
    (vector.capacity b : Int) = b.capacity_ - b.begin_ := by
  unfold vector.capacity toSize
  omega

theorem reserve_loop_ok : ∀ (k : Nat) (h : Heap T) (it : Int) (tmp : vector_base),
    h.budget = none →
    (∀ i : Nat, i < k → (h.mem (it + i)).isSome) →
    it + k ≤ tmp.end_ →
    ∃ h1, vector.reserve_loop k h it tmp = .ok (h1, { tmp with end_ := tmp.end_ + k }) ∧
      h1.budget = none ∧ h1.next = h.next ∧
      (∀ i : Nat, i < k → h1.mem (tmp.end_ + i) = h.mem (it + i)) ∧
      (∀ a : Int, (a < it ∨ it + k ≤ a) → (a < tmp.end_ ∨ tmp.end_ + k ≤ a) →
        h1.mem a = h.mem a) ∧
      (∀ i : Nat, i < k → h1.mem (it + i) = none) ∧
      h1.log = h.log ++ (List.range k).flatMap
        (fun i : Nat => [Event.construct (tmp.end_ + (i : Int)), Event.dtor (it + (i : Int))]) := by
  intro k
  induction k with
  | zero =>
      intro h it tmp hb _ _
      refine ⟨h, by simp [vector.reserve_loop], hb, rfl, ?_, ?_, ?_, by simp⟩
      · intro i hi; omega
      · intro a _ _; rfl
      · intro i hi; omega
  | succ k ih =>
      intro h it tmp hb hl hd
      have h0 := hl 0 (by omega)
      simp only [Nat.cast_zero, add_zero] at h0
      obtain ⟨x, hx⟩ := Option.isSome_iff_exists.mp h0
      have hmem : ∀ a : Int, (dtor ({ h with
          mem := fun a => if a = tmp.end_ then some x else h.mem a,
          log := h.log ++ [Event.construct tmp.end_] } : Heap T) it).mem a
            = if a = it then none else if a = tmp.end_ then some x else h.mem a := by
        intro a; rfl
      obtain ⟨h2, e2, b2, n2, m2, f2, d2, l2⟩ := ih (dtor ({ h with
          mem := fun a => if a = tmp.end_ then some x else h.mem a,
          log := h.log ++ [Event.construct tmp.end_] } : Heap T) it) (it + 1)
          { tmp with end_ := tmp.end_ + 1 } (by simpa [dtor] using hb)
          (by
            intro i hi
            rw [hmem]
            have := hl (i + 1) (by omega)
            push_cast at this hd
            have e : it + 1 + (i : Int) = it + ((i : Int) + 1) := by omega
            rw [e]
            split_ifs <;> first | (exfalso; omega) | exact this)
          (by dsimp only; push_cast at hd; omega)
      dsimp only at e2 m2 f2 l2
      push_cast at hd
      refine ⟨h2, ?_, b2, ?_, ?_, ?_, ?_, ?_⟩
      · simp only [vector.reserve_loop, hx, construct_noThrow h _ _ hb, e2]
        simp; omega
      · rw [n2]; rfl
      · intro i hi
        cases i with
        | zero =>
            simp only [Nat.cast_zero, add_zero]
            rw [f2 _ (by omega) (by omega), hmem, hx]
            split_ifs <;> first | rfl | (exfalso; omega)
        | succ i =>
            have := m2 i (by omega)
            push_cast
            have e : tmp.end_ + ((i : Int) + 1) = tmp.end_ + 1 + i := by omega
            rw [e, this, hmem]
            have e' : it + 1 + (i : Int) = it + ((i : Int) + 1) := by omega
            rw [e']
            split_ifs <;> first | rfl | (exfalso; omega)
      · intro a ha ha'
        push_cast at ha ha'
        rw [f2 a (by omega) (by omega), hmem]
        split_ifs <;> first | rfl | (exfalso; omega)
      · intro i hi
        cases i with
        | zero =>
            simp only [Nat.cast_zero, add_zero]
            rw [f2 _ (by omega) (by omega), hmem]
            simp
        | succ i =>
            have := d2 i (by omega)
            push_cast
            have e : it + ((i : Int) + 1) = it + 1 + i := by omega
            rw [e, this]
      · rw [l2, List.range_succ_eq_map]
        simp [dtor, List.flatMap_map, add_assoc, add_comm, Function.comp_def]
        congr 1; funext a
        have e1 : (a : Int) + (tmp.end_ + 1) = tmp.end_ + ((a : Int) + 1) := by omega
        have e2 : (a : Int) + (it + 1) = it + ((a : Int) + 1) := by omega
        rw [e1, e2]

theorem reserve_grow (h : Heap T) (b : vector) (n : Nat)
    (hb : h.budget = none) (h0 : b.begin_ ≤ b.end_) (hn : b.end_ ≤ h.next)
    (hl : ∀ i : Nat, (i : Int) < b.end_ - b.begin_ → (h.mem (b.begin_ + i)).isSome)
    (hg : ¬ n ≤ vector.capacity b) :
    ∃ h1, vector.reserve h b n = .ok (h1,
        { allocator_ := b.allocator_, begin_ := h.next, capacity_ := h.next + n,
          end_ := h.next + (b.end_ - b.begin_) }) ∧
      h1.budget = none ∧ h1.next = h.next + n + 1 ∧
      (∀ i : Nat, (i : Int) < b.end_ - b.begin_ → h1.mem (h.next + i) = h.mem (b.begin_ + i)) ∧
      (∀ a : Int, a < h.next → (a < b.begin_ ∨ b.end_ ≤ a) → h1.mem a = h.mem a) ∧
      h1.log = h.log ++ [Event.allocate h.next n] ++
        (List.range (b.end_ - b.begin_).toNat).flatMap
          (fun i : Nat => [Event.construct (h.next + (i : Int)), Event.dtor (b.begin_ + (i : Int))]) ++
        [Event.deallocate b.begin_ (toSize (b.end_ - b.begin_))] := by
  have hk : (((b.end_ - b.begin_).toNat : Nat) : Int) = b.end_ - b.begin_ := by omega
  obtain ⟨h1, e1, b1, n1, m1, f1, -, l1⟩ := reserve_loop_ok (b.end_ - b.begin_).toNat
    (vector_base.ctor h b.allocator_ n).1 b.begin_ (vector_base.ctor h b.allocator_ n).2
    (by simpa [vector_base.ctor, allocate] using hb)
    (by intro i hi; simpa [vector_base.ctor, allocate] using hl i (by omega))
    (by simp only [vector_base.ctor, allocate]; omega)
  simp only [vector_base.ctor, allocate] at e1 n1 m1 f1 l1
  refine ⟨deallocate h1 b.begin_ (toSize (b.end_ - b.begin_)), ?_, ?_, ?_, ?_, ?_, ?_⟩
  · simp only [vector.reserve, if_neg hg, if_pos h0, e1, vector_base.swap,
      vector_base.ctor, allocate, hk]
    simp [vector_base.dtor]
  · simpa [vector_base.dtor, deallocate] using b1
  · simpa [vector_base.dtor, deallocate] using n1
  · intro i hi
    simpa [vector_base.dtor, deallocate] using m1 i (by omega)
  · intro a ha ha'
    simpa [vector_base.dtor, deallocate] using f1 a (by omega) (by omega)
  · simp [vector_base.dtor, deallocate, l1, vector_base.swap]

theorem push_back_ok (h : Heap T) (b : vector) (value : Ref T) (x : T)
    (hb : h.budget = none) (h0 : b.begin_ ≤ b.end_) (h1 : b.end_ ≤ b.capacity_)
    (hc : b.capacity_ - b.begin_ < 18446744073709551616)
    (hs : b.end_ - b.begin_ < 9223372036854775808)
    (hn : b.capacity_ ≤ h.next)
    (hl : ∀ i : Nat, (i : Int) < b.end_ - b.begin_ → (h.mem (b.begin_ + i)).isSome)
    (hv : Ref.read h value = some x)
    (hsafe : b.end_ < b.capacity_ ∨ Ref.outside h b value) :
    ∃ h1 b1, vector.push_back h b value = .ok (h1, b1) ∧ h1.budget = none ∧
      b1.allocator_ = b.allocator_ ∧ b1.begin_ ≤ b1.end_ ∧
      b1.end_ - b1.begin_ = b.end_ - b.begin_ + 1 ∧ b1.end_ ≤ b1.capacity_ ∧
      h.next ≤ h1.next ∧ b1.capacity_ ≤ h1.next ∧
      (∀ i : Nat, (i : Int) < b.end_ - b.begin_ →
        h1.mem (b1.begin_ + i) = h.mem (b.begin_ + i)) ∧
      h1.mem (b1.end_ - 1) = some x ∧
      (∀ a : Int, a < h.next → (a < b.begin_ ∨ b.capacity_ ≤ a) → h1.mem a = h.mem a) ∧
      ((b.end_ < b.capacity_ ∧ b1.begin_ = b.begin_ ∧ b1.capacity_ = b.capacity_ ∧
          h1.next = h.next) ∨
       (b.end_ = b.capacity_ ∧ b1.begin_ = h.next ∧
          b1.capacity_ - b1.begin_ =
            (if b.end_ = b.begin_ then 8 else 2 * (b.end_ - b.begin_)))) := by
  have hsz := size_cast b h0 (by omega)
  have hcp := capacity_cast b (by omega) hc
  by_cases hlt : b.end_ < b.capacity_
  · have hcs : ¬ vector.capacity b ≤ vector.size b := by omega
    have hp : b.begin_ + (vector.size b : Int) = b.end_ := by omega
    refine ⟨{ h with mem := fun a => if a = b.end_ then some x else h.mem a,
                     log := h.log ++ [Event.construct b.end_] },
      { b with end_ := b.end_ + 1 }, ?_, ?_, rfl, ?_, ?_, ?_, ?_, ?_, ?_, ?_, ?_, ?_⟩
    · simp only [vector.push_back, if_neg hcs, hv, hp, construct_noThrow h _ _ hb]
    · simpa using hb
    · dsimp only; omega
    · dsimp only; omega
    · dsimp only; omega
    · exact le_refl _
    · exact hn
    · intro i hi
      have : b.begin_ + (i : Int) ≠ b.end_ := by omega
      simp [this]
    · simp
    · intro a ha ha'
      have : a ≠ b.end_ := by omega
      simp [this]
    · exact Or.inl ⟨hlt, rfl, rfl, rfl⟩
  · have heq : b.end_ = b.capacity_ := by omega
    have hcs : vector.capacity b ≤ vector.size b := by omega
    obtain ⟨n, hndef, hng, hnv⟩ : ∃ n : Nat,
        (if vector.size b ≠ 0 then (2 * vector.size b) % 18446744073709551616 else 8) = n ∧
        ¬ n ≤ vector.capacity b ∧
        (n : Int) = (if b.end_ = b.begin_ then 8 else 2 * (b.end_ - b.begin_)) := by
      refine ⟨_, rfl, ?_, ?_⟩
      · split_ifs <;> omega
      · split_ifs <;> omega
    obtain ⟨h2, e2, b2, n2, m2, f2, -⟩ := reserve_grow h b n hb h0 (by omega) hl hng
    have hv2 : Ref.read h2 value = some x := by
      rcases hsafe with hroom | hout
      · exact absurd hroom hlt
      · cases value with
        | slot q =>
            simp only [Ref.outside] at hout
            simp only [Ref.read] at hv ⊢
            rw [f2 q hout.1 hout.2]; exact hv
        | object v => exact hv
    have hp : h.next + (vector.size
        ({ allocator_ := b.allocator_, begin_ := h.next, capacity_ := h.next + n,
           end_ := h.next + (b.end_ - b.begin_) } : vector) : Int)
        = h.next + (b.end_ - b.begin_) := by
      rw [size_cast _ (by dsimp only; omega) (by dsimp only; omega)]
      dsimp only; omega
    refine ⟨{ h2 with
        mem := fun a => if a = h.next + (b.end_ - b.begin_) then some x else h2.mem a,
        log := h2.log ++ [Event.construct (h.next + (b.end_ - b.begin_))] },
      { allocator_ := b.allocator_, begin_ := h.next, capacity_ := h.next + n,
        end_ := h.next + (b.end_ - b.begin_) + 1 },
      ?_, ?_, rfl, ?_, ?_, ?_, ?_, ?_, ?_, ?_, ?_, ?_⟩
    · simp only [vector.push_back, if_pos hcs, hndef, e2, hv2, hp, construct_noThrow h2 _ _ b2]
    · simpa using b2
    · dsimp only; omega
    · dsimp only; omega
    · dsimp only
      have : (n : Int) ≥ b.end_ - b.begin_ + 1 := by
        rw [hnv]; split_ifs <;> omega
      omega
    · dsimp only; omega
    · dsimp only; omega
    · intro i hi
      have : h.next + (i : Int) ≠ h.next + (b.end_ - b.begin_) := by omega
      simp only [this, if_false]
      exact m2 i hi
    · simp
    · intro a ha ha'
      have : a ≠ h.next + (b.end_ - b.begin_) := by omega
      simp only [this, if_false]
      exact f2 a ha (by omega)
    · refine Or.inr ⟨heq, rfl, ?_⟩
      dsimp only; omega

theorem push_all_ok : ∀ (xs : List T) (h : Heap T) (b : vector),
    h.budget = none → b.begin_ ≤ b.end_ → b.end_ ≤ b.capacity_ →
    b.capacity_ - b.begin_ < 18446744073709551616 →
    b.end_ - b.begin_ + xs.length ≤ 9223372036854775808 →
    b.capacity_ ≤ h.next → vector.live h b →
    ∃ h1 b1, vector.push_all (xs.map Ref.object) h b = .ok (h1, b1) ∧ h1.budget = none ∧
      b1.allocator_ = b.allocator_ ∧ b1.begin_ ≤ b1.end_ ∧ b1.end_ ≤ b1.capacity_ ∧
      b1.capacity_ - b1.begin_ < 18446744073709551616 ∧
      b1.end_ - b1.begin_ = b.end_ - b.begin_ + xs.length ∧
      h.next ≤ h1.next ∧ b1.capacity_ ≤ h1.next ∧
      (∀ i : Nat, (i : Int) < b.end_ - b.begin_ →
        h1.mem (b1.begin_ + i) = h.mem (b.begin_ + i)) ∧
      (∀ (j : Nat) (hj : j < xs.length),
        h1.mem (b1.begin_ + (b.end_ - b.begin_) + j) = some xs[j]) ∧
      (∀ a : Int, a < h.next → (a < b.begin_ ∨ b.capacity_ ≤ a) → h1.mem a = h.mem a) ∧
      (b.end_ + xs.length ≤ b.capacity_ →
        b1.begin_ = b.begin_ ∧ b1.capacity_ = b.capacity_) := by
  intro xs
  induction xs with
  | nil =>
      intro h b hb h0 h1 hc _ hn _
      refine ⟨h, b, rfl, hb, rfl, h0, h1, hc, by simp, le_refl _, hn, fun _ _ => rfl, ?_,
        fun _ _ _ => rfl, fun _ => ⟨rfl, rfl⟩⟩
      intro j hj; simp at hj
  | cons x xs ih =>
      intro h b hb h0 h1 hc hs hn hl
      simp only [List.length_cons, Nat.cast_add, Nat.cast_one] at hs
      obtain ⟨h2, b2, e2, bu2, al2, w2, sz2, ec2, nx2, cn2, m2, l2, f2, cs2⟩ :=
        push_back_ok h b (Ref.object x) x hb h0 h1 hc (by omega) hn hl rfl (Or.inr trivial)
      have hc2 : b2.capacity_ - b2.begin_ < 18446744073709551616 := by
        rcases cs2 with ⟨_, e1, e2, _⟩ | ⟨_, _, e2⟩
        · omega
        · rw [e2]; split_ifs <;> omega
      have hl2 : vector.live h2 b2 := by
        intro i hi
        by_cases hi' : (i : Int) < b.end_ - b.begin_
        · rw [m2 i hi']; exact hl i hi'
        · have e : b2.begin_ + (i : Int) = b2.end_ - 1 := by omega
          rw [e, l2]; rfl
      obtain ⟨h3, b3, e3, bu3, al3, w3, ec3, hc3, sz3, nx3, cn3, m3, l3, f3, r3⟩ :=
        ih h2 b2 bu2 w2 ec2 hc2 (by omega) cn2 hl2
      refine ⟨h3, b3, ?_, bu3, by rw [al3, al2], w3, ec3, hc3, ?_, by omega, cn3, ?_, ?_, ?_,
        ?_⟩
      · simp only [List.map_cons, vector.push_all, e2, e3]
      · simp only [List.length_cons, Nat.cast_add, Nat.cast_one]; omega
      · intro i hi
        rw [m3 i (by omega), m2 i hi]
      · intro j hj
        cases j with
        | zero =>
            obtain ⟨k, hk⟩ : ∃ k : Nat, (k : Int) = b.end_ - b.begin_ := ⟨(b.end_ - b.begin_).toNat, by omega⟩
            have := m3 k (by omega)
            simp only [Nat.cast_zero, add_zero, List.getElem_cons_zero]
            rw [← hk, this, ← l2]; congr 1; omega
        | succ j =>
            have := l3 j (by simpa using hj)
            simp only [List.getElem_cons_succ]
            rw [← this]; congr 1; push_cast; omega
      · intro a ha ha'
        rw [f3 a (by omega) ?_, f2 a ha ha']
        rcases cs2 with ⟨_, e1, e2, _⟩ | ⟨_, e1, _⟩
        · rw [e1, e2]; exact ha'
        · left; omega
      · intro hroom
        simp only [List.length_cons, Nat.cast_add, Nat.cast_one] at hroom
        rcases cs2 with ⟨_, e1, e2', _⟩ | ⟨c1, _, _⟩
        · obtain ⟨r1, r2⟩ := r3 (by omega)
          exact ⟨by rw [r1, e1], by rw [r2, e2']⟩
        · omega

theorem assign_loop_ok : ∀ (k : Nat) (h : Heap T) (b : vector) (first : Int),
    h.budget = none → b.begin_ ≤ b.end_ → b.end_ ≤ b.capacity_ →
    b.capacity_ - b.begin_ < 18446744073709551616 →
    b.end_ - b.begin_ + k ≤ 9223372036854775808 →
    b.capacity_ ≤ h.next → vector.live h b →
    (∀ j : Nat, j < k → (h.mem (first + j)).isSome) →
    first + k ≤ h.next →
    (∀ a : Int, first ≤ a → a < first + k → a < b.begin_ ∨ b.capacity_ ≤ a) →
    ∃ h1 b1, vector.assign_loop k h b first = .ok (h1, b1) ∧ h1.budget = none ∧
      b1.allocator_ = b.allocator_ ∧ b1.begin_ ≤ b1.end_ ∧ b1.end_ ≤ b1.capacity_ ∧
      b1.capacity_ - b1.begin_ < 18446744073709551616 ∧
      b1.end_ - b1.begin_ = b.end_ - b.begin_ + k ∧
      h.next ≤ h1.next ∧ b1.capacity_ ≤ h1.next ∧
      (∀ i : Nat, (i : Int) < b.end_ - b.begin_ →
        h1.mem (b1.begin_ + i) = h.mem (b.begin_ + i)) ∧
      (∀ j : Nat, j < k →
        h1.mem (b1.begin_ + (b.end_ - b.begin_) + j) = h.mem (first + j)) ∧
      (∀ a : Int, a < h.next → (a < b.begin_ ∨ b.capacity_ ≤ a) → h1.mem a = h.mem a) := by
  intro k
  induction k with
  | zero =>
      intro h b first hb h0 h1 hc _ hn _ _ _ _
      refine ⟨h, b, rfl, hb, rfl, h0, h1, hc, by simp, le_refl _, hn, fun _ _ => rfl, ?_,
        fun _ _ _ => rfl⟩
      intro j hj; omega
  | succ k ih =>
      intro h b first hb h0 h1 hc hs hn hl hsrc hfn hdj
      push_cast at hs hfn hdj
      have hs0 := hsrc 0 (by omega)
      simp only [Nat.cast_zero, add_zero] at hs0
      obtain ⟨x, hx⟩ := Option.isSome_iff_exists.mp hs0
      obtain ⟨h2, b2, e2, bu2, al2, w2, sz2, ec2, nx2, cn2, m2, l2, f2, cs2⟩ :=
        push_back_ok h b (Ref.slot first) x hb h0 h1 hc (by omega) hn hl hx
          (Or.inr ⟨by omega, by have := hdj first (le_refl _) (by omega); omega⟩)
      have hc2 : b2.capacity_ - b2.begin_ < 18446744073709551616 := by
        rcases cs2 with ⟨_, e1, e2, _⟩ | ⟨_, _, e2⟩
        · omega
        · rw [e2]; split_ifs <;> omega
      have hl2 : vector.live h2 b2 := by
        intro i hi
        by_cases hi' : (i : Int) < b.end_ - b.begin_
        · rw [m2 i hi']; exact hl i hi'
        · have e : b2.begin_ + (i : Int) = b2.end_ - 1 := by omega
          rw [e, l2]; rfl
      have hsrc2 : ∀ j : Nat, j < k → h2.mem (first + 1 + j) = h.mem (first + 1 + j) := by
        intro j hj
        exact f2 _ (by omega) (hdj _ (by omega) (by omega))
      have hdj2 : ∀ a : Int, first + 1 ≤ a → a < first + 1 + k →
          a < b2.begin_ ∨ b2.capacity_ ≤ a := by
        intro a ha1 ha2
        rcases cs2 with ⟨_, e1, e2, _⟩ | ⟨_, e1, _⟩
        · rw [e1, e2]; exact hdj a (by omega) (by omega)
        · left; omega
      obtain ⟨h3, b3, e3, bu3, al3, w3, ec3, hc3, sz3, nx3, cn3, m3, l3, f3⟩ :=
        ih h2 b2 (first + 1) bu2 w2 ec2 hc2 (by omega) cn2 hl2
          (by
            intro j hj
            rw [hsrc2 j hj]
            have := hsrc (j + 1) (by omega)
            push_cast at this
            have e : first + 1 + (j : Int) = first + ((j : Int) + 1) := by omega
            rw [e]; exact this)
          (by omega) hdj2
      refine ⟨h3, b3, ?_, bu3, by rw [al3, al2], w3, ec3, hc3, ?_, by omega, cn3, ?_, ?_, ?_⟩
      · simp only [vector.assign_loop, e2, e3]
      · push_cast; omega
      · intro i hi
        rw [m3 i (by omega), m2 i hi]
      · intro j hj
        cases j with
        | zero =>
            obtain ⟨n, hn'⟩ : ∃ n : Nat, (n : Int) = b.end_ - b.begin_ :=
              ⟨(b.end_ - b.begin_).toNat, by omega⟩
            have := m3 n (by omega)
            simp only [Nat.cast_zero, add_zero]
            rw [← hn', this, hx, ← l2]; congr 1; omega
        | succ j =>
            have := l3 j (by omega)
            rw [hsrc2 j (by omega)] at this
            push_cast
            have e : first + ((j : Int) + 1) = first + 1 + j := by omega
            rw [e, ← this]; congr 1; omega
      · intro a ha ha'
        rw [f3 a (by omega) ?_, f2 a ha ha']
        rcases cs2 with ⟨_, e1, e2, _⟩ | ⟨_, e1, _⟩
        · rw [e1, e2]; exact ha'
        · left; omega

theorem subscript_of_mem (h : Heap T) (b : vector) (i : Nat) (h0 : b.begin_ ≤ b.end_)
    (hc : b.end_ - b.begin_ < 18446744073709551616) (hi : (i : Int) < b.end_ - b.begin_) :
    vector.subscript h b i = h.mem (b.begin_ + i) := by
  have := size_cast b h0 hc
  have hlt : i < vector.size b := by omega
  simp [vector.subscript, hlt]

theorem contents_congr (h h1 : Heap T) (b b1 : vector) (hs : vector.size b1 = vector.size b)
    (hm : ∀ i : Nat, i < vector.size b → h1.mem (b1.begin_ + i) = h.mem (b.begin_ + i)) :
    vector.contents h1 b1 = vector.contents h b := by
  unfold vector.contents
  rw [hs]
  apply List.map_congr_left
  intro i hi
  exact hm i (List.mem_range.mp hi)

theorem copy_loop_ok : ∀ (k : Nat) (h : Heap T) (b : vector) (first : Int),
    h.budget = none →
    (∀ i : Nat, i < k → (h.mem (first + i)).isSome) →
    first + k ≤ b.end_ →
    ∃ h1, vector.copy_loop k h b first = .ok (h1, { b with end_ := b.end_ + k }) ∧
      h1.budget = none ∧ h1.next = h.next ∧
      (∀ i : Nat, i < k → h1.mem (b.end_ + i) = h.mem (first + i)) ∧
      (∀ a : Int, (a < b.end_ ∨ b.end_ + k ≤ a) → h1.mem a = h.mem a) := by
  intro k
  induction k with
  | zero =>
      intro h b first hb _ _
      refine ⟨h, by simp [vector.copy_loop], hb, rfl, ?_, fun _ _ => rfl⟩
      intro i hi; omega
  | succ k ih =>
      intro h b first hb hl hd
      push_cast at hd
      have h0 := hl 0 (by omega)
      simp only [Nat.cast_zero, add_zero] at h0
      obtain ⟨x, hx⟩ := Option.isSome_iff_exists.mp h0
      have hmem : ∀ a : Int, ({ h with
          mem := fun a => if a = b.end_ then some x else h.mem a,
          log := h.log ++ [Event.construct b.end_] } : Heap T).mem a
            = if a = b.end_ then some x else h.mem a := by
        intro a; rfl
      obtain ⟨h2, e2, b2, n2, m2, f2⟩ := ih ({ h with
          mem := fun a => if a = b.end_ then some x else h.mem a,
          log := h.log ++ [Event.construct b.end_] } : Heap T)
          { b with end_ := b.end_ + 1 } (first + 1) (by simpa using hb)
          (by
            intro i hi
            rw [hmem]
            have := hl (i + 1) (by omega)
            push_cast at this
            have e : first + 1 + (i : Int) = first + ((i : Int) + 1) := by omega
            rw [e]
            split_ifs <;> first | (exfalso; omega) | exact this)
          (by dsimp only; omega)
      dsimp only at e2 m2 f2
      refine ⟨h2, ?_, b2, ?_, ?_, ?_⟩
      · simp only [vector.copy_loop, hx, construct_noThrow h _ _ hb, e2]
        simp; omega
      · rw [n2]
      · intro i hi
        cases i with
        | zero =>
            simp only [Nat.cast_zero, add_zero]
            rw [f2 _ (by omega), hx]
            simp
        | succ i =>
            have := m2 i (by omega)
            push_cast
            have e : b.end_ + ((i : Int) + 1) = b.end_ + 1 + i := by omega
            rw [e, this]
            have e' : first + 1 + (i : Int) = first + ((i : Int) + 1) := by omega
            rw [e']
            split_ifs <;> first | rfl | (exfalso; omega)
      · intro a ha
        push_cast at ha
        rw [f2 a (by omega)]
        split_ifs <;> first | rfl | (exfalso; omega)

theorem assign_ok (h : Heap T) (b : vector) (first last : Int)
    (hb : h.budget = none) (h0 : b.begin_ ≤ b.end_) (h1 : b.end_ ≤ b.capacity_)
    (hc : b.capacity_ - b.begin_ < 18446744073709551616) (hn : b.capacity_ ≤ h.next)
    (hfl : first ≤ last) (hlen : last - first ≤ 9223372036854775808)
    (hsrc : ∀ j : Nat, (j : Int) < last - first → (h.mem (first + j)).isSome)
    (hln : last ≤ h.next)
    (hdj : ∀ a : Int, first ≤ a → a < last → a < b.begin_ ∨ b.capacity_ ≤ a) :
    ∃ h1 b1, vector.assign h b first last = .ok (h1, b1) ∧ h1.budget = none ∧
      b1.allocator_ = b.allocator_ ∧ b1.begin_ ≤ b1.end_ ∧ b1.end_ ≤ b1.capacity_ ∧
      b1.capacity_ - b1.begin_ < 18446744073709551616 ∧
      b1.end_ - b1.begin_ = last - first ∧
      h.next ≤ h1.next ∧ b1.capacity_ ≤ h1.next ∧
      (∀ j : Nat, (j : Int) < last - first → h1.mem (b1.begin_ + j) = h.mem (first + j)) ∧
      (∀ a : Int, a < h.next → (a < b.begin_ ∨ b.capacity_ ≤ a) → h1.mem a = h.mem a) := by
  obtain ⟨-, mc, nc, bc⟩ := destruct_loop_spec (b.end_ - b.begin_).toNat h b.end_
  have hk : (((b.end_ - b.begin_).toNat : Nat) : Int) = b.end_ - b.begin_ := by omega
  have hkl : (((last - first).toNat : Nat) : Int) = last - first := by omega
  have hout : ∀ a : Int, (a < b.begin_ ∨ b.capacity_ ≤ a) →
      (vector_base.destruct_loop (b.end_ - b.begin_).toNat h b.end_).mem a = h.mem a := by
    intro a ha
    rw [mc a, hk]
    have : ¬ (b.end_ - (b.end_ - b.begin_) ≤ a ∧ a < b.end_) := by omega
    simp only [this, if_false]
  obtain ⟨h2, b2, e2, bu2, al2, w2, ec2, hc2, sz2, nx2, cn2, -, l2, f2⟩ :=
    assign_loop_ok (last - first).toNat
      (vector_base.destruct_loop (b.end_ - b.begin_).toNat h b.end_)
      { b with end_ := b.begin_ } first (by rw [bc]; exact hb) (le_refl _) (by dsimp only; omega)
      hc (by dsimp only; omega) (by rw [nc]; exact hn)
      (by intro i hi; dsimp only at hi; omega)
      (by
        intro j hj
        rw [hout _ (hdj _ (by omega) (by omega))]
        exact hsrc j (by omega))
      (by rw [nc]; omega)
      (by intro a ha1 ha2; exact hdj a ha1 (by omega))
  dsimp only at al2 sz2 l2 f2
  rw [nc] at nx2 f2
  refine ⟨h2, b2, ?_, bu2, al2, w2, ec2, hc2, by omega, nx2, cn2, ?_, ?_⟩
  · simp only [vector.assign, vector.clear, vector_base.clear, vector_base.destruct_at_end,
      if_pos h0, if_pos hfl, e2]
  · intro j hj
    have := l2 j (by omega)
    rw [hout _ (hdj _ (by omega) (by omega))] at this
    rw [← this]; congr 1; omega
  · intro a ha ha'
    rw [f2 a ha ha', hout a ha']

theorem copy_assign_alloc_ok (h : Heap T) (b other : vector_base)
    (h0 : b.begin_ ≤ b.end_) (h1 : b.end_ ≤ b.capacity_)
    (hc : b.capacity_ - b.begin_ < 18446744073709551616) (hn : b.capacity_ ≤ h.next)
    (hz : 0 ≤ h.next) :
    ∃ h1 b1, vector_base.copy_assign_alloc h b other = .ok (h1, b1) ∧
      h1.budget = h.budget ∧ h1.next = h.next ∧ b1.allocator_ = other.allocator_ ∧
      b1.begin_ ≤ b1.end_ ∧ b1.end_ ≤ b1.capacity_ ∧
      b1.capacity_ - b1.begin_ < 18446744073709551616 ∧ b1.capacity_ ≤ h1.next ∧
      (∀ a : Int, (a < b.begin_ ∨ b.capacity_ ≤ a) → h1.mem a = h.mem a) ∧
      (∀ a : Int, (a < b.begin_ ∨ b.capacity_ ≤ a) → (a < b1.begin_ ∨ b1.capacity_ ≤ a)) := by
  by_cases ha : b.allocator_ = other.allocator_
  · refine ⟨h, { b with allocator_ := other.allocator_ }, ?_, rfl, rfl, rfl, h0, h1, hc, hn,
      fun _ _ => rfl, fun _ ha => ha⟩
    simp [vector_base.copy_assign_alloc, ha]
  · obtain ⟨-, mc, nc, bc⟩ := destruct_loop_spec (b.end_ - b.begin_).toNat h b.end_
    have hk : (((b.end_ - b.begin_).toNat : Nat) : Int) = b.end_ - b.begin_ := by omega
    refine ⟨deallocate (vector_base.destruct_loop (b.end_ - b.begin_).toNat h b.end_) b.begin_
        (toSize (b.capacity_ - b.begin_)),
      { allocator_ := other.allocator_, begin_ := nullptr, capacity_ := nullptr,
        end_ := nullptr }, ?_, ?_, ?_, rfl, ?_, ?_, ?_, ?_, ?_, ?_⟩
    · simp [vector_base.copy_assign_alloc, ha, vector_base.clear, vector_base.destruct_at_end, h0]
    · simpa [deallocate] using bc
    · simpa [deallocate] using nc
    · simp [nullptr]
    · simp [nullptr]
    · simp [nullptr]
    · simp only [deallocate, nullptr, nc]; exact hz
    · intro a ha'
      simp only [deallocate]
      rw [mc a, hk]
      have : ¬ (b.end_ - (b.end_ - b.begin_) ≤ a ∧ a < b.end_) := by omega
      simp only [this, if_false]
    · intro a _
      simp only [nullptr]; omega

theorem demoA_live : vector.live demoHeap demoA := by
  intro i hi
  have : i = 0 ∨ i = 1 := by simp only [demoA] at hi; omega
  rcases this with rfl | rfl <;> simp [demoHeap, demoA]

theorem demoB_live : vector.live demoHeap demoB := by
  intro i hi
  have : i = 0 ∨ i = 1 := by simp only [demoB] at hi; omega
  rcases this with rfl | rfl <;> simp [demoHeap, demoB]

theorem destroy_loop_spec : ∀ (k : Nat) (h : Heap T) (it : Int),
    (vector.destroy_loop k h it).log =
        h.log ++ (List.range k).map (fun i : Nat => Event.destroy (it + (i : Int))) ∧
      (∀ a : Int, (vector.destroy_loop k h it).mem a =
        if it ≤ a ∧ a < it + k then none else h.mem a) ∧
      (vector.destroy_loop k h it).next = h.next ∧
      (vector.destroy_loop k h it).budget = h.budget := by
  intro k
  induction k with
  | zero =>
      intro h it
      refine ⟨by simp [vector.destroy_loop], ?_, rfl, rfl⟩
      intro a
      have : ¬ (it ≤ a ∧ a < it + ((0 : Nat) : Int)) := by omega
      simp only [vector.destroy_loop, if_neg this]
  | succ k ih =>
      intro h it
      obtain ⟨l, m, n, b⟩ := ih (destroy h it) (it + 1)
      simp only [vector.destroy_loop]
      refine ⟨?_, ?_, ?_, ?_⟩
      · rw [l, List.range_succ_eq_map]
        simp [destroy, List.map_map, Function.comp_def]
        intro a _; omega
      · intro a
        rw [m a]
        simp only [destroy]
        push_cast
        split_ifs <;> first | rfl | (exfalso; omega)
      · rw [n]; rfl
      · rw [b]; rfl

theorem vector_dtor_log (h : Heap T) (b : vector) (h0 : b.begin_ ≤ b.capacity_) :
    ∃ h1, vector.dtor h b = .ok h1 ∧
      h1.log = h.log ++ (List.range (b.capacity_ - b.begin_).toNat).map
          (fun i : Nat => Event.destroy (b.begin_ + (i : Int))) ++
        [Event.deallocate b.begin_ (vector.size b)] := by
  obtain ⟨l, -, -, -⟩ := destroy_loop_spec (b.capacity_ - b.begin_).toNat h b.begin_
  refine ⟨vector_base.dtor (vector.destroy_loop (b.capacity_ - b.begin_).toNat h b.begin_)
    { b with capacity_ := b.begin_ }, ?_, ?_⟩
  · simp only [vector.dtor, vector.destroy_elements, if_pos h0]
  · simp [vector_base.dtor, deallocate, l, vector.size]

theorem fill_loop_shape (value : T) : ∀ (k : Nat) (h : Heap T) (b : vector)
    (r : Heap T × vector), vector.fill_loop value k h b = .ok r →
    r.2 = { b with end_ := b.end_ + k } := by
  intro k
  induction k with
  | zero =>
      intro h b r hr
      simp only [vector.fill_loop, Outcome.ok.injEq] at hr
      subst hr; simp
  | succ k ih =>
      intro h b r hr
      simp only [vector.fill_loop] at hr
      split at hr
      · have := ih _ _ _ hr
        rw [this]; simp; omega
      · cases hr

theorem copy_loop_shape : ∀ (k : Nat) (h : Heap T) (b : vector) (first : Int)
    (r : Heap T × vector), vector.copy_loop k h b first = .ok r →
    r.2 = { b with end_ := b.end_ + k } := by
  intro k
  induction k with
  | zero =>
      intro h b first r hr
      simp only [vector.copy_loop, Outcome.ok.injEq] at hr
      subst hr; simp
  | succ k ih =>
      intro h b first r hr
      simp only [vector.copy_loop] at hr
      split at hr
      · cases hr
      · split at hr
        · have := ih _ _ _ _ hr
          rw [this]; simp; omega
        · cases hr

theorem reserve_loop_shape : ∀ (k : Nat) (h : Heap T) (it : Int) (tmp : vector_base)
    (r : Heap T × vector_base), vector.reserve_loop k h it tmp = .ok r →
    r.2 = { tmp with end_ := tmp.end_ + k } := by
  intro k
  induction k with
  | zero =>
      intro h it tmp r hr
      simp only [vector.reserve_loop, Outcome.ok.injEq] at hr
      subst hr; simp
  | succ k ih =>
      intro h it tmp r hr
      simp only [vector.reserve_loop] at hr
      split at hr
      · cases hr
      · split at hr
        · have := ih _ _ _ _ hr
          rw [this]; simp; omega
        · cases hr

theorem reserve_inv (h : Heap T) (b : vector) (n : Nat) (hi : vector.inv b)
    (hn : n < 18446744073709551616) :
    (∀ r, vector.reserve h b n = .ok r →
      vector.inv r.2 ∧ r.2.end_ - r.2.begin_ = b.end_ - b.begin_ ∧
      (n : Int) ≤ r.2.capacity_ - r.2.begin_ ∧
      (r.2.capacity_ - r.2.begin_ = b.capacity_ - b.begin_ ∨
        r.2.capacity_ - r.2.begin_ = n)) ∧
    (∀ r, vector.reserve h b n = .thrown r → r.2 = b) := by
  obtain ⟨i0, i1, i2⟩ := hi
  have hcp := capacity_cast b (by omega) i2
  have hk : (((b.end_ - b.begin_).toNat : Nat) : Int) = b.end_ - b.begin_ := by omega
  constructor
  · intro r hr
    unfold vector.reserve at hr
    split_ifs at hr with hle
    · simp only [Outcome.ok.injEq] at hr
      subst hr
      exact ⟨⟨i0, i1, i2⟩, rfl, by dsimp only; omega, Or.inl rfl⟩
    · split at hr
      · rename_i h2 tmp2 hloop
        have hs := reserve_loop_shape _ _ _ _ _ hloop
        simp only [Outcome.ok.injEq] at hr
        subst hr
        dsimp only at hs
        simp only [vector_base.swap, hs, vector_base.ctor, allocate, vector.inv]
        refine ⟨⟨by omega, by omega, by omega⟩, by omega, by omega, Or.inr (by omega)⟩
      · cases hr
      · cases hr
  · intro r hr
    unfold vector.reserve at hr
    split_ifs at hr with hle
    · split at hr
      · cases hr
      · simp only [Outcome.thrown.injEq] at hr
        subst hr; rfl
      · cases hr

theorem push_back_inv (h : Heap T) (b : vector) (x : Ref T) (hi : vector.inv b)
    (hs : b.end_ - b.begin_ < 9223372036854775808) :
    (∀ r, vector.push_back h b x = .ok r →
      vector.inv r.2 ∧ r.2.end_ - r.2.begin_ = b.end_ - b.begin_ + 1) ∧
    (∀ r, vector.push_back h b x = .thrown r →
      vector.inv r.2 ∧ r.2.end_ - r.2.begin_ = b.end_ - b.begin_) := by
  have hi' := hi
  obtain ⟨i0, i1, i2⟩ := hi
  have hsz := size_cast b i0 (by omega)
  have hcp := capacity_cast b (by omega) i2
  by_cases hcs : vector.capacity b ≤ vector.size b
  · obtain ⟨n, hndef, hn64, hnv⟩ : ∃ n : Nat,
        (if vector.size b ≠ 0 then (2 * vector.size b) % 18446744073709551616 else 8) = n ∧
        n < 18446744073709551616 ∧ (b.end_ - b.begin_ + 1 ≤ (n : Int)) := by
      refine ⟨_, rfl, ?_, ?_⟩
      · split_ifs <;> omega
      · split_ifs <;> omega
    obtain ⟨rok, rth⟩ := reserve_inv h b n hi' hn64
    constructor
    · intro r hr
      simp only [vector.push_back, if_pos hcs, hndef] at hr
      cases hres : vector.reserve h b n with
      | ok p =>
          obtain ⟨⟨j0, j1, j2⟩, jsz, jn, -⟩ := rok p hres
          rw [hres] at hr
          dsimp only at hr
          split at hr
          · cases hr
          · split at hr
            · simp only [Outcome.ok.injEq] at hr
              subst hr
              exact ⟨⟨by dsimp only; omega, by dsimp only; omega, by dsimp only; omega⟩,
                by dsimp only; omega⟩
            · cases hr
      | thrown p => rw [hres] at hr; cases hr
      | undefined => rw [hres] at hr; cases hr
    · intro r hr
      simp only [vector.push_back, if_pos hcs, hndef] at hr
      cases hres : vector.reserve h b n with
      | ok p =>
          obtain ⟨⟨j0, j1, j2⟩, jsz, jn, -⟩ := rok p hres
          rw [hres] at hr
          dsimp only at hr
          split at hr
          · cases hr
          · split at hr
            · cases hr
            · simp only [Outcome.thrown.injEq] at hr
              subst hr
              exact ⟨⟨j0, j1, j2⟩, jsz⟩
      | thrown p =>
          rw [hres] at hr
          simp only [Outcome.thrown.injEq] at hr
          subst hr
          rw [rth p hres]
          exact ⟨hi', rfl⟩
      | undefined => rw [hres] at hr; cases hr
  · constructor
    · intro r hr
      simp only [vector.push_back, if_neg hcs] at hr
      split at hr
      · cases hr
      · split at hr
        · simp only [Outcome.ok.injEq] at hr
          subst hr
          exact ⟨⟨by dsimp only; omega, by dsimp only; omega, by dsimp only; omega⟩,
            by dsimp only; omega⟩
        · cases hr
    · intro r hr
      simp only [vector.push_back, if_neg hcs] at hr
      split at hr
      · cases hr
      · split at hr
        · cases hr
        · simp only [Outcome.thrown.injEq] at hr
          subst hr
          exact ⟨hi', rfl⟩

theorem assign_loop_inv : ∀ (k : Nat) (h : Heap T) (b : vector) (first : Int)
    (r : Heap T × vector), vector.inv b →
    b.end_ - b.begin_ + k ≤ 9223372036854775808 →
    (vector.assign_loop k h b first).final = some r → vector.inv r.2 := by
  intro k
  induction k with
  | zero =>
      intro h b first r hi _ hr
      simp only [vector.assign_loop, Outcome.final, Option.some.injEq] at hr
      subst hr; exact hi
  | succ k ih =>
      intro h b first r hi hs hr
      push_cast at hs
      simp only [vector.assign_loop] at hr
      obtain ⟨pok, pth⟩ := push_back_inv h b (Ref.slot first) hi (by have := hi.1; omega)
      cases hres : vector.push_back h b (Ref.slot first) with
      | ok p =>
          obtain ⟨j, jsz⟩ := pok p hres
          rw [hres] at hr
          exact ih _ _ _ _ j (by omega) hr
      | thrown p =>
          rw [hres] at hr
          simp only [Outcome.final, Option.some.injEq] at hr
          subst hr
          exact (pth p hres).1
      | undefined =>
          rw [hres] at hr
          simp [Outcome.final] at hr

theorem clear_inv (h : Heap T) (b : vector) (r : Heap T × vector) (hi : vector.inv b)
    (hr : (vector.clear h b).final = some r) : vector.inv r.2 ∧ r.2.end_ = r.2.begin_ := by
  obtain ⟨i0, i1, i2⟩ := hi
  simp only [vector.clear, vector_base.clear, vector_base.destruct_at_end, if_pos i0,
    Outcome.final, Option.some.injEq] at hr
  subst hr
  exact ⟨⟨le_refl _, by dsimp only; omega, i2⟩, rfl⟩

theorem assign_inv (h : Heap T) (b : vector) (first last : Int) (r : Heap T × vector)
    (hi : vector.inv b) (hlen : last - first ≤ 9223372036854775808)
    (hr : (vector.assign h b first last).final = some r) : vector.inv r.2 := by
  have i0 := hi.1
  have hc : vector.clear h b = .ok (vector_base.destruct_loop (b.end_ - b.begin_).toNat h b.end_,
      { b with end_ := b.begin_ }) := by
    simp [vector.clear, vector_base.clear, vector_base.destruct_at_end, i0]
  obtain ⟨j, je⟩ := clear_inv h b _ hi (by rw [hc]; rfl)
  simp only [vector.assign, hc] at hr
  split_ifs at hr with hfl
  · exact assign_loop_inv _ _ _ _ _ j (by dsimp only at je ⊢; omega) hr
  · simp [Outcome.final] at hr

theorem copy_assign_alloc_inv (h : Heap T) (b other : vector_base) (hi : vector.inv b) :
    ∃ r, vector_base.copy_assign_alloc h b other = .ok r ∧ vector.inv r.2 := by
  have i0 := hi.1
  by_cases ha : b.allocator_ = other.allocator_
  · exact ⟨(h, { b with allocator_ := other.allocator_ }),
      by simp [vector_base.copy_assign_alloc, ha], hi⟩
  · refine ⟨(deallocate (vector_base.destruct_loop (b.end_ - b.begin_).toNat h b.end_) b.begin_
        (toSize (b.capacity_ - b.begin_)),
      { allocator_ := other.allocator_, begin_ := nullptr, capacity_ := nullptr,
        end_ := nullptr }), ?_, ?_⟩
    · simp [vector_base.copy_assign_alloc, ha, vector_base.clear, vector_base.destruct_at_end, i0]
    · simp [vector.inv, nullptr]

theorem copy_assign_inv (s : Store T) (self other : Nat) (s1 : Store T)
    (hi : vector.inv (s.objs self))
    (hlen : (s.objs other).end_ - (s.objs other).begin_ ≤ 9223372036854775808)
    (hr : (vector.copy_assign s self other).final = some s1) : vector.inv (s1.objs self) := by
  unfold vector.copy_assign at hr
  split_ifs at hr with hne
  · obtain ⟨p, hp, j⟩ := copy_assign_alloc_inv s.heap (s.objs self) (s.objs other) hi
    rw [hp] at hr
    dsimp only at hr
    cases hres : vector.assign p.1 p.2 (s.objs other).begin_ (s.objs other).end_ with
    | ok q =>
        have := assign_inv p.1 p.2 _ _ q j hlen (by rw [hres]; rfl)
        rw [hres] at hr
        simp only [Outcome.final, Option.some.injEq] at hr
        subst hr
        simpa using this
    | thrown q =>
        have := assign_inv p.1 p.2 _ _ q j hlen (by rw [hres]; rfl)
        rw [hres] at hr
        simp only [Outcome.final, Option.some.injEq] at hr
        subst hr
        simpa using this
    | undefined =>
        rw [hres] at hr
        simp [Outcome.final] at hr
  · simp only [Outcome.final, Option.some.injEq] at hr
    subst hr; exact hi

theorem ctor_fill_inv (h : Heap T) (n : Nat) (value : T) (allocator : Nat) (r : Heap T × vector)
    (hn : n < 18446744073709551616) (hr : vector.ctor_fill h n value allocator = .ok r) :
    vector.inv r.2 := by
  unfold vector.ctor_fill at hr
  split at hr
  · rename_i p hloop
    have hs := fill_loop_shape _ _ _ _ _ hloop
    simp only [Outcome.ok.injEq] at hr
    subst hr
    rw [hs]
    simp only [vector.inv, vector_base.ctor, allocate]
    omega
  · cases hr
  · cases hr

theorem ctor_copy_inv (h : Heap T) (other : vector) (r : Heap T × vector)
    (hi : vector.inv other) (hr : vector.ctor_copy h other = .ok r) : vector.inv r.2 := by
  obtain ⟨i0, i1, i2⟩ := hi
  have hsz := size_cast other i0 (by omega)
  unfold vector.ctor_copy at hr
  split_ifs at hr
  split at hr
  · rename_i p hloop
    have hs := copy_loop_shape _ _ _ _ _ hloop
    simp only [Outcome.ok.injEq] at hr
    subst hr
    rw [hs]
    simp only [vector.inv, vector_base.ctor, allocate]
    omega
  · cases hr
  · cases hr

theorem reachable_inv (b : vector) (hr : Reachable T b) : vector.inv b := by
  induction hr with
  | ctor_default h allocator =>
      simp only [vector.inv, vector.ctor_default, vector_base.ctor, allocate]; omega
  | ctor_fill h n value allocator h1 b hn he => exact ctor_fill_inv h n value allocator _ hn he
  | ctor_copy h other h1 b _ he ih => exact ctor_copy_inv h other _ ih he
  | push_back h b value r _ hs he ih =>
      obtain ⟨pok, pth⟩ := push_back_inv h b value ih hs
      cases hres : vector.push_back h b value with
      | ok p =>
          rw [hres] at he
          simp only [Outcome.final, Option.some.injEq] at he
          subst he; exact (pok p hres).1
      | thrown p =>
          rw [hres] at he
          simp only [Outcome.final, Option.some.injEq] at he
          subst he; exact (pth p hres).1
      | undefined => rw [hres] at he; simp [Outcome.final] at he
  | reserve h b n r _ hn he ih =>
      obtain ⟨rok, rth⟩ := reserve_inv h b n ih hn
      cases hres : vector.reserve h b n with
      | ok p =>
          rw [hres] at he
          simp only [Outcome.final, Option.some.injEq] at he
          subst he; exact (rok p hres).1
      | thrown p =>
          rw [hres] at he
          simp only [Outcome.final, Option.some.injEq] at he
          subst he; rw [rth p hres]; exact ih
      | undefined => rw [hres] at he; simp [Outcome.final] at he
  | clear h b r _ he ih => exact (clear_inv h b r ih he).1
  | assign h b first last r _ hlen he ih => exact assign_inv h b first last r ih hlen he
  | assign_fill h b count value _ ih => exact ih
  | copy_assign s self other s1 _ _ hlen he ih _ => exact copy_assign_inv s self other s1 ih hlen he

theorem reserve_grow_vacates (h : Heap T) (b : vector) (n : Nat)
    (hb : h.budget = none) (h0 : b.begin_ ≤ b.end_) (hn : b.end_ ≤ h.next)
    (hl : ∀ i : Nat, (i : Int) < b.end_ - b.begin_ → (h.mem (b.begin_ + i)).isSome)
    (hg : ¬ n ≤ vector.capacity b) :
    ∃ h1 b1, vector.reserve h b n = .ok (h1, b1) ∧
      ∀ i : Nat, (i : Int) < b.end_ - b.begin_ → h1.mem (b.begin_ + i) = none := by
  have hk : (((b.end_ - b.begin_).toNat : Nat) : Int) = b.end_ - b.begin_ := by omega
  obtain ⟨h1, e1, -, -, -, -, d1, -⟩ := reserve_loop_ok (b.end_ - b.begin_).toNat
    (vector_base.ctor h b.allocator_ n).1 b.begin_ (vector_base.ctor h b.allocator_ n).2
    (by simpa [vector_base.ctor, allocate] using hb)
    (by intro i hi; simpa [vector_base.ctor, allocate] using hl i (by omega))
    (by simp only [vector_base.ctor, allocate]; omega)
  simp only [vector_base.ctor, allocate] at e1 d1
  refine ⟨deallocate h1 b.begin_ (toSize (b.end_ - b.begin_)),
    { allocator_ := b.allocator_, begin_ := h.next, capacity_ := h.next + n,
      end_ := h.next + (b.end_ - b.begin_) }, ?_, ?_⟩
  · simp only [vector.reserve, if_neg hg, if_pos h0, e1, vector_base.swap,
      vector_base.ctor, allocate, hk]
    simp [vector_base.dtor]
  · intro i hi
    simpa [deallocate] using d1 i (by omega)

theorem push_back_own_element (h : Heap T) (b : vector) (p : Int)
    (hb : h.budget = none) (h0 : b.begin_ ≤ b.end_) (hfull : b.end_ = b.capacity_)
    (hc : b.capacity_ - b.begin_ < 18446744073709551616)
    (hs : b.end_ - b.begin_ < 9223372036854775808)
    (hn : b.capacity_ ≤ h.next) (hl : vector.live h b)
    (hp0 : b.begin_ ≤ p) (hp1 : p < b.end_) :
    vector.push_back h b (Ref.slot p) = .undefined := by
  have hsz := size_cast b h0 (by omega)
  have hcp := capacity_cast b (by omega) hc
  have hcs : vector.capacity b ≤ vector.size b := by omega
  obtain ⟨n, hndef, hng⟩ : ∃ n : Nat,
      (if vector.size b ≠ 0 then (2 * vector.size b) % 18446744073709551616 else 8) = n ∧
      ¬ n ≤ vector.capacity b := by
    refine ⟨_, rfl, ?_⟩
    split_ifs <;> omega
  obtain ⟨h2, b2, e2, d2⟩ := reserve_grow_vacates h b n hb h0 (by omega) hl hng
  have hnone : h2.mem p = none := by
    have := d2 (p - b.begin_).toNat (by omega)
    have e : b.begin_ + (((p - b.begin_).toNat : Nat) : Int) = p := by omega
    rw [e] at this; exact this
  simp only [vector.push_back, if_pos hcs, hndef, e2, Ref.read, hnone]

theorem push_all_append : ∀ (xs ys : List (Ref T)) (h : Heap T) (b : vector),
    vector.push_all (xs ++ ys) h b =
      match vector.push_all xs h b with
      | .ok (h1, b1) => vector.push_all ys h1 b1
      | r => r := by
  intro xs
  induction xs with
  | nil => intro ys h b; simp [vector.push_all]
  | cons x xs ih =>
      intro ys h b
      simp only [List.cons_append, vector.push_all]
      cases hres : vector.push_back h b x with
      | ok r => exact ih ys r.1 r.2
      | thrown r => rfl
      | undefined => rfl

/-! ## Claims -/

/-- C1 (what the code does): pushing `x_0, ..., x_{k-1}` onto a default-constructed vector
from objects that are not elements of the vector returns with `size() == k`,
`capacity() >= k` and `operator[](i) == x_i`, across all reallocations (no construction
throws, `k ≤ 2^63`). But `push_back` reads its reference argument after `reserve` has
destroyed and released the old storage: after four such pushes the vector is full, and
`v.push_back(v[0])`, whose argument is the vector's own first element, reads a slot that no
longer holds an object; the call has no defined result, so `operator[](4) == x_4` fails. -/
theorem push_back_sequence (h : Heap T) (allocator : Nat) (xs : List T)
    (hb : h.budget = none) (hlen : xs.length ≤ 9223372036854775808) :
    (∃ h1 v, vector.push_all (xs.map Ref.object) (vector.ctor_default h allocator).1
        (vector.ctor_default h allocator).2 = .ok (h1, v) ∧
      vector.size v = xs.length ∧ xs.length ≤ vector.capacity v ∧
      ∀ (i : Nat) (hi : i < xs.length), vector.subscript h1 v i = some xs[i]) ∧
    (xs.length = 4 →
      vector.push_all
        (xs.map Ref.object ++ [Ref.slot (vector.ctor_default h allocator).2.begin_])
        (vector.ctor_default h allocator).1 (vector.ctor_default h allocator).2 =
          .undefined) := by
  obtain ⟨h1, v, e, bu, -, w, ec, hc, sz, -, cn, -, l, -, room⟩ :=
    push_all_ok xs (vector.ctor_default h allocator).1 (vector.ctor_default h allocator).2
      (by simpa [vector.ctor_default, vector_base.ctor, allocate] using hb)
      (by simp [vector.ctor_default, vector_base.ctor, allocate])
      (by simp [vector.ctor_default, vector_base.ctor, allocate])
      (by simp [vector.ctor_default, vector_base.ctor, allocate])
      (by simp only [vector.ctor_default, vector_base.ctor, allocate]; omega)
      (by simp only [vector.ctor_default, vector_base.ctor, allocate]; omega)
      (by intro i hi; simp [vector.ctor_default, vector_base.ctor, allocate] at hi; omega)
  have hd : (vector.ctor_default h allocator).2.end_ - (vector.ctor_default h allocator).2.begin_
      = 0 := by simp [vector.ctor_default, vector_base.ctor, allocate]
  have hcap : (vector.ctor_default h allocator).2.capacity_ =
      (vector.ctor_default h allocator).2.end_ + 4 := by
    simp [vector.ctor_default, vector_base.ctor, allocate]
  rw [hd] at sz l
  have hsz := size_cast v w (by omega)
  have hcp := capacity_cast v (by omega) hc
  have hsub : ∀ (i : Nat) (hi : i < xs.length), h1.mem (v.begin_ + i) = some xs[i] := by
    intro i hi
    simpa using l i hi
  refine ⟨⟨h1, v, e, by omega, by omega, ?_⟩, ?_⟩
  · intro i hi
    rw [subscript_of_mem h1 v i w (by omega) (by omega)]
    exact hsub i hi
  · intro h4
    obtain ⟨r1, r2⟩ := room (by rw [hcap, h4]; norm_num)
    have hlive : vector.live h1 v := by
      intro i hi
      rw [hsub i (by omega)]; rfl
    have hown := push_back_own_element h1 v v.begin_ bu w (by omega) hc (by omega) cn hlive
      (le_refl _) (by omega)
    rw [push_all_append, e]
    simp only [vector.push_all, ← r1, hown]

/-- Instance of C1: `vector<int> v;`, four pushes of 10, 11, 12, 13, then `v.push_back(v[0])`. -/
theorem push_back_sequence_witness :
    (∃ h1 v, vector.push_all ([10, 11, 12, 13].map Ref.object)
        (vector.ctor_default emptyHeap 0).1 (vector.ctor_default emptyHeap 0).2 = .ok (h1, v) ∧
      vector.size v = [10, 11, 12, 13].length ∧ [10, 11, 12, 13].length ≤ vector.capacity v ∧
      ∀ (i : Nat) (hi : i < [10, 11, 12, 13].length),
        vector.subscript h1 v i = some [10, 11, 12, 13][i]) ∧
    ([10, 11, 12, 13].length = 4 →
      vector.push_all
        ([10, 11, 12, 13].map Ref.object ++
          [Ref.slot (vector.ctor_default emptyHeap 0).2.begin_])
        (vector.ctor_default emptyHeap 0).1 (vector.ctor_default emptyHeap 0).2 =
          .undefined) :=
  push_back_sequence emptyHeap 0 [10, 11, 12, 13] rfl (by decide)

/-- C3: when none of the `n` element constructions throws, `vector(n, value)` returns a
vector with `size() == n`, `capacity() == n` (so `capacity() >= n`) and
`operator[](i) == value` for every `i < n`. `n` is a `size_type`. -/
theorem ctor_fill_spec (h : Heap T) (n : Nat) (value : T) (allocator : Nat)
    (hn : n < 18446744073709551616) (hc : h.canConstruct n) :
    ∃ h1 v, vector.ctor_fill h n value allocator = .ok (h1, v) ∧
      vector.size v = n ∧ vector.capacity v = n ∧ n ≤ vector.capacity v ∧
      ∀ i : Nat, i < n → vector.subscript h1 v i = some value := by
  have hc1 : (vector_base.ctor h allocator n).1.canConstruct n := by
    intro k hk; exact hc k (by simpa [vector_base.ctor, allocate] using hk)
  obtain ⟨h1, e1, m1, -, -, -⟩ :=
    fill_loop_ok value n (vector_base.ctor h allocator n).1 (vector_base.ctor h allocator n).2 hc1
  refine ⟨h1, { (vector_base.ctor h allocator n).2 with
    end_ := (vector_base.ctor h allocator n).2.end_ + n }, ?_, ?_, ?_, ?_, ?_⟩
  · simp only [vector.ctor_fill, e1]
  · simp [vector.size, vector_base.ctor, allocate, toSize_cast n hn]
  · simp [vector.capacity, vector_base.ctor, allocate, toSize_cast n hn]
  · simp [vector.capacity, vector_base.ctor, allocate, toSize_cast n hn]
  · intro i hi
    have := m1 i hi
    simp only [vector.subscript, vector.size, vector_base.ctor, allocate] at this ⊢
    simp [toSize_cast n hn, hi, this]

/-- Instance of C3: `vector<int>(3, 7)`. -/
theorem ctor_fill_spec_witness :
    ∃ h1 v, vector.ctor_fill emptyHeap 3 7 0 = .ok (h1, v) ∧
      vector.size v = 3 ∧ vector.capacity v = 3 ∧ 3 ≤ vector.capacity v ∧
      ∀ i : Nat, i < 3 → vector.subscript h1 v i = some 7 :=
  ctor_fill_spec emptyHeap 3 7 0 (by decide) (by intro k hk; cases hk)

/-- C4 (what the code does): when the `(k+1)`-th construction inside `vector(n, value)`
throws (`k < n`), the exception propagates and the trace of the call is: `allocate(n)`, the
`k` successful constructions, then `k + 1` calls of `destroy`, on the slots
`begin_ + k`, `begin_ + k - 1`, ..., `begin_`, then `deallocate(begin_, 2^64 - 1)`.
The first `destroy` is on the slot whose construction threw, which never held an object:
`end_++` has already advanced `end_` past it when the handler starts. -/
theorem ctor_fill_unwinds_failed_slot (h : Heap T) (n k : Nat) (value : T) (allocator : Nat)
    (hk : k < n) (hb : h.budget = some k) :
    ∃ h1, vector.ctor_fill h n value allocator = .thrown h1 ∧
      h1.log = h.log ++ [Event.allocate h.next n] ++
        (List.range k).map (fun i : Nat => Event.construct (h.next + (i : Int))) ++
        (List.range (k + 1)).map (fun i : Nat => Event.destroy (h.next + (k : Int) - (i : Int))) ++
        [Event.deallocate h.next 18446744073709551615] := by
  obtain ⟨h1, e1, l1, -⟩ := fill_loop_throw value k n (vector_base.ctor h allocator n).1
    (vector_base.ctor h allocator n).2 (by simpa [vector_base.ctor, allocate] using hb) hk
  refine ⟨vector.ctor_catch h1 { (vector_base.ctor h allocator n).2 with
    end_ := (vector_base.ctor h allocator n).2.end_ + k + 1 },
    by simp only [vector.ctor_fill, e1], ?_⟩
  simp only [vector.ctor_catch, vector_base.dtor, deallocate]
  have hcount : (h.next + (k : Int) + 1 - h.next).toNat = k + 1 := by omega
  simp only [vector_base.ctor, allocate] at l1 ⊢
  rw [hcount]
  obtain ⟨e, l⟩ := unwind_spec (k + 1) h1
    { allocator_ := allocator, begin_ := h.next, capacity_ := h.next + (n : Int),
      end_ := h.next + (k : Int) + 1 }
  rw [e, l, l1]
  have ht : toSize (h.next + (k : Int) + 1 - ((k + 1 : Nat) : Int) - 1 - h.next)
      = 18446744073709551615 := by
    have : h.next + (k : Int) + 1 - ((k + 1 : Nat) : Int) - 1 - h.next = -1 := by
      push_cast; omega
    rw [this]; rfl
  simp only [ht]
  simp

/-- Instance of C4: `vector(3, 7)` whose third construction throws; `destroy` is called
on slot 3, which never held an object. -/
theorem ctor_fill_unwinds_failed_slot_witness :
    ∃ h1, vector.ctor_fill thirdThrowsHeap 3 7 0 = .thrown h1 ∧
      h1.log = [Event.allocate 1 3, Event.construct 1, Event.construct 2, Event.destroy 3,
        Event.destroy 2, Event.destroy 1, Event.deallocate 1 18446744073709551615] := by
  have := ctor_fill_unwinds_failed_slot thirdThrowsHeap 3 2 7 0 (by decide) rfl
  simpa [thirdThrowsHeap, List.range_succ] using this

/-- C5 (what the code does): copy-constructing from `other` returns a vector with
`size() == other.size()`, `capacity() == other.size()` and the same element sequence, and
leaves the elements of `other` unchanged. A `push_back` on the copy of an object that lives
outside the element heap then returns with the copy's size equal to `other.size() + 1`, its
elements those of `other` followed by the new value, and the elements of `other` still
unchanged. But the copy is always full, and `push_back` reads its reference argument after
`reserve` has destroyed and released the old storage: a `push_back` on the copy whose
argument is an element of the copy itself (`b.push_back(b[0])`) reads a slot that no longer
holds an object and has no defined result, so the copy's size does not become
`other.size() + 1`. Hypotheses: `other` has `begin_ ≤ end_ ≤ capacity_`, is at most
`PTRDIFF_MAX` long, lies in allocated memory and its elements are live; no construction
throws. -/
theorem ctor_copy_spec (h : Heap T) (other : vector) (x : T)
    (hb : h.budget = none) (h0 : other.begin_ ≤ other.end_) (h1 : other.end_ ≤ other.capacity_)
    (hfit : other.capacity_ - other.begin_ < 9223372036854775808)
    (hn : other.capacity_ ≤ h.next) (hl : vector.live h other) :
    ∃ h1 w, vector.ctor_copy h other = .ok (h1, w) ∧
      vector.size w = vector.size other ∧ vector.capacity w = vector.size other ∧
      vector.contents h1 w = vector.contents h other ∧
      vector.contents h1 other = vector.contents h other ∧
      (∃ h2 w2, vector.push_back h1 w (Ref.object x) = .ok (h2, w2) ∧
        vector.size w2 = vector.size other + 1 ∧
        vector.contents h2 w2 = vector.contents h other ++ [some x] ∧
        vector.contents h2 other = vector.contents h other) ∧
      (∀ p : Int, w.begin_ ≤ p → p < w.end_ →
        vector.push_back h1 w (Ref.slot p) = .undefined) := by
  have hsz := size_cast other h0 (by omega)
  have hk : (((other.end_ - other.begin_).toNat : Nat) : Int) = other.end_ - other.begin_ := by
    omega
  obtain ⟨h2, e2, b2, n2, m2, f2⟩ := copy_loop_ok (other.end_ - other.begin_).toNat
    (vector_base.ctor h other.allocator_ (vector.size other)).1
    (vector_base.ctor h other.allocator_ (vector.size other)).2 other.begin_
    (by simpa [vector_base.ctor, allocate] using hb)
    (by intro i hi; simpa [vector_base.ctor, allocate] using hl i (by omega))
    (by simp only [vector_base.ctor, allocate]; omega)
  simp only [vector_base.ctor, allocate, hk, hsz] at e2 n2 m2 f2
  obtain ⟨w, hw⟩ : ∃ w : vector, w = { allocator_ := other.allocator_, begin_ := h.next, capacity_ := h.next + (other.end_ - other.begin_), end_ := h.next + (other.end_ - other.begin_) } := ⟨_, rfl⟩
  have hwb : w.begin_ = h.next := by rw [hw]
  have hwe : w.end_ = h.next + (other.end_ - other.begin_) := by rw [hw]
  have hwc : w.capacity_ = h.next + (other.end_ - other.begin_) := by rw [hw]
  have hszw := size_cast w (by omega) (by omega)
  have hcpw := capacity_cast w (by omega) (by omega)
  have hs1 : vector.size w = vector.size other := by omega
  have hlw : vector.live h2 w := by
    intro i hi
    rw [hwb, m2 i (by omega)]
    exact hl i (by omega)
  have hc1 : vector.contents h2 w = vector.contents h other := by
    apply contents_congr _ _ _ _ hs1
    intro i hi
    rw [hwb]; exact m2 i (by omega)
  have hc2 : vector.contents h2 other = vector.contents h other := by
    apply contents_congr _ _ _ _ rfl
    intro i hi
    exact f2 _ (Or.inl (by omega))
  obtain ⟨h3, w3, e3, -, -, w0, sz3, ec3, -, -, m3, l3, f3, -⟩ :=
    push_back_ok h2 w (Ref.object x) x b2 (by omega) (by omega) (by omega) (by omega)
      (by omega) hlw rfl (Or.inr trivial)
  have hszw3 := size_cast w3 w0 (by omega)
  have hown : ∀ p : Int, w.begin_ ≤ p → p < w.end_ →
      vector.push_back h2 w (Ref.slot p) = .undefined := fun p hp0 hp1 =>
    push_back_own_element h2 w p b2 (by omega) (by omega) (by omega) (by omega) (by omega) hlw
      hp0 hp1
  refine ⟨h2, w, ?_, hs1, by omega, hc1, hc2, ⟨h3, w3, e3, by omega, ?_, ?_⟩, hown⟩
  · simp only [vector.ctor_copy, if_pos h0, vector_base.ctor, allocate, e2, hsz, hw]
  · rw [← hc1]
    unfold vector.contents
    have : vector.size w3 = vector.size w + 1 := by omega
    rw [this, List.range_succ, List.map_append]
    congr 1
    · apply List.map_congr_left
      intro i hi
      exact m3 i (by have := List.mem_range.mp hi; omega)
    · simp only [List.map_cons, List.map_nil]
      have e : w3.begin_ + (vector.size w : Int) = w3.end_ - 1 := by omega
      rw [e, l3]
  · rw [← hc2]
    apply contents_congr _ _ _ _ rfl
    intro i hi
    exact f3 _ (by omega) (Or.inl (by omega))

/-- Instance of C5: a copy `w` of `demoA`, then `w.push_back(2)`, or `w.push_back(w[i])`. -/
theorem ctor_copy_spec_witness :
    ∃ h1 w, vector.ctor_copy demoHeap demoA = .ok (h1, w) ∧
      vector.size w = vector.size demoA ∧ vector.capacity w = vector.size demoA ∧
      vector.contents h1 w = vector.contents demoHeap demoA ∧
      vector.contents h1 demoA = vector.contents demoHeap demoA ∧
      (∃ h2 w2, vector.push_back h1 w (Ref.object 2) = .ok (h2, w2) ∧
        vector.size w2 = vector.size demoA + 1 ∧
        vector.contents h2 w2 = vector.contents demoHeap demoA ++ [some 2] ∧
        vector.contents h2 demoA = vector.contents demoHeap demoA) ∧
      (∀ p : Int, w.begin_ ≤ p → p < w.end_ →
        vector.push_back h1 w (Ref.slot p) = .undefined) :=
  ctor_copy_spec demoHeap demoA 2 rfl (by decide) (by decide) (by decide) (by decide) demoA_live

/-- C6: copy assignment `a = b`. For the same object (`a = a`) the call returns with the
whole state unchanged. For two distinct vectors it returns, the element sequence of `a`
afterwards is the one `b` had, `a` carries the allocator of `b`, and `b` (object and
elements) and every other object are unchanged; nothing is assumed about the two
allocators, so this holds whether or not they compare equal. Hypotheses: both vectors have
`begin_ ≤ end_ ≤ capacity_` and lie in allocated memory, the storage of `a` does not
overlap the elements of `b`, the elements of `b` are live and at most `2^63` many, the
null address is never handed out, no construction throws. -/
theorem copy_assign_spec (s : Store T) (a b : Nat)
    (hb : s.heap.budget = none) (hz : 0 ≤ s.heap.next)
    (ha0 : (s.objs a).begin_ ≤ (s.objs a).end_) (ha1 : (s.objs a).end_ ≤ (s.objs a).capacity_)
    (hac : (s.objs a).capacity_ - (s.objs a).begin_ < 18446744073709551616)
    (han : (s.objs a).capacity_ ≤ s.heap.next)
    (hb0 : (s.objs b).begin_ ≤ (s.objs b).end_)
    (hbc : (s.objs b).end_ - (s.objs b).begin_ ≤ 9223372036854775808)
    (hbn : (s.objs b).end_ ≤ s.heap.next) (hbl : vector.live s.heap (s.objs b))
    (hdj : (s.objs a).capacity_ ≤ (s.objs b).begin_ ∨ (s.objs b).end_ ≤ (s.objs a).begin_) :
    vector.copy_assign s a a = .ok s ∧
    (a ≠ b → ∃ s1, vector.copy_assign s a b = .ok s1 ∧
      vector.contents s1.heap (s1.objs a) = vector.contents s.heap (s.objs b) ∧
      (s1.objs a).allocator_ = (s.objs b).allocator_ ∧
      s1.objs b = s.objs b ∧
      vector.contents s1.heap (s1.objs b) = vector.contents s.heap (s.objs b) ∧
      ∀ c, c ≠ a → s1.objs c = s.objs c) := by
  refine ⟨by simp [vector.copy_assign], ?_⟩
  intro hne
  obtain ⟨h1, a1, e1, bu1, nx1, al1, w1, ec1, hc1, cn1, f1, blk1⟩ :=
    copy_assign_alloc_ok s.heap (s.objs a) (s.objs b) ha0 ha1 hac han hz
  have hsrc_out : ∀ x : Int, (s.objs b).begin_ ≤ x → x < (s.objs b).end_ →
      x < (s.objs a).begin_ ∨ (s.objs a).capacity_ ≤ x := by
    intro x hx1 hx2; omega
  obtain ⟨h2, a2, e2, bu2, al2, w2, ec2, hc2, sz2, nx2, cn2, m2, f2⟩ :=
    assign_ok h1 a1 (s.objs b).begin_ (s.objs b).end_ (by rw [bu1]; exact hb) w1 ec1 hc1 cn1
      hb0 hbc
      (by
        intro j hj
        rw [f1 _ (hsrc_out _ (by omega) (by omega))]
        exact hbl j hj)
      (by rw [nx1]; exact hbn)
      (by intro x hx1 hx2; exact blk1 x (hsrc_out x hx1 hx2))
  have hszb := size_cast (s.objs b) hb0 (by omega)
  have hsza := size_cast a2 w2 (by omega)
  have hbsame : ∀ i : Nat, i < vector.size (s.objs b) →
      h2.mem ((s.objs b).begin_ + i) = s.heap.mem ((s.objs b).begin_ + i) := by
    intro i hi
    have hx := hsrc_out ((s.objs b).begin_ + i) (by omega) (by omega)
    rw [f2 _ (by omega) (blk1 _ hx), f1 _ hx]
  refine ⟨{ heap := h2, objs := fun c => if c = a then a2 else s.objs c }, ?_, ?_, ?_, ?_, ?_, ?_⟩
  · simp only [vector.copy_assign, if_pos hne, e1, e2]
  · simp only [if_true]
    apply contents_congr _ _ _ _ (by omega)
    intro i hi
    rw [m2 i (by omega), f1 _ (hsrc_out _ (by omega) (by omega))]
  · simp only [if_true]; rw [al2, al1]
  · simp [Ne.symm hne]
  · simp only [if_neg (Ne.symm hne)]
    exact contents_congr _ _ _ _ rfl hbsame
  · intro c hc; simp [hc]

/-- Instance of C6: `demoA = demoB` (unequal allocators) and `demoA = demoA`. -/
theorem copy_assign_spec_witness :
    vector.copy_assign demoStore 0 0 = .ok demoStore ∧
    ((0 : Nat) ≠ 1 → ∃ s1, vector.copy_assign demoStore 0 1 = .ok s1 ∧
      vector.contents s1.heap (s1.objs 0) = vector.contents demoStore.heap (demoStore.objs 1) ∧
      (s1.objs 0).allocator_ = (demoStore.objs 1).allocator_ ∧
      s1.objs 1 = demoStore.objs 1 ∧
      vector.contents s1.heap (s1.objs 1) = vector.contents demoStore.heap (demoStore.objs 1) ∧
      ∀ c, c ≠ 0 → s1.objs c = demoStore.objs c) :=
  copy_assign_spec demoStore 0 1 rfl (by decide) (by decide) (by decide) (by decide) (by decide)
    (by decide) (by decide) (by decide) demoB_live (by decide)

/-- C7 (what the code does): the object move-constructed from `other` has the allocator of
`other` and null `begin_`, `capacity_` and `end_`, and `other` keeps all its fields: the
body of the constructor nulls the members of the new object, not those of `other`. -/
theorem move_ctor_keeps_source (other : vector) :
    (vector.move_ctor other).1 =
        { allocator_ := other.allocator_, begin_ := nullptr,
          capacity_ := nullptr, end_ := nullptr } ∧
      (vector.move_ctor other).2 = other ∧
      vector.size (vector.move_ctor other).1 = 0 ∧
      vector.size (vector.move_ctor other).2 = vector.size other := by
  simp [vector.move_ctor, vector_base.move_ctor, vector.size, toSize, nullptr]

/-- C8 (what the code does): the move assignment `w = std::move(v)` never returns. Within
any number `fuel` of nested calls it has not returned when `begin_ ≤ end_` holds for `w`
(and is undefined otherwise, `clear()` being so): `std::swap(*this, other)` assigns
`*this = std::move(other)`, which is the same operator again. -/
theorem move_assign_never_returns : ∀ (fuel : Nat) (h : Heap T) (w v : vector),
    vector.move_assign fuel h w v =
      if fuel = 0 ∨ w.begin_ ≤ w.end_ then none else some .undefined := by
  intro fuel
  induction fuel with
  | zero => intro h w v; simp [vector.move_assign]
  | succ fuel ih =>
      intro h w v
      by_cases hw : w.begin_ ≤ w.end_
      · have e : vector.clear h w =
            .ok (vector_base.destruct_loop (w.end_ - w.begin_).toNat h w.end_,
              { w with end_ := w.begin_ }) := by
          simp [vector.clear, vector_base.clear, vector_base.destruct_at_end, hw]
        have := ih (vector_base.destruct_loop (w.end_ - w.begin_).toNat h w.end_)
          ({ w with end_ := w.begin_ }) v
        simp only [le_refl, or_true, if_true] at this
        simp only [vector.move_assign, e, vector.move_ctor, vector_base.move_ctor, this]
        simp [hw]
      · have e : vector.clear h w = .undefined := by
          simp [vector.clear, vector_base.clear, vector_base.destruct_at_end, hw]
        simp only [vector.move_assign, e]
        simp [hw]

/-- C10: `clear()` on a vector with `begin_ ≤ end_` returns with `size() == 0` and
`empty()`, leaves `begin_`, `capacity_` (hence `capacity()`) and the allocator unchanged,
and calls `destroy` on the slots `end_ - 1`, ..., `begin_` in this order: exactly once on
every slot of the old `[begin_, end_)`, which then holds no object, and on no other slot,
whose content is unchanged. -/
theorem clear_spec (h : Heap T) (b : vector) (h0 : b.begin_ ≤ b.end_) :
    ∃ h1 b1, vector.clear h b = .ok (h1, b1) ∧
      vector.size b1 = 0 ∧ vector.empty b1 = true ∧
      b1.begin_ = b.begin_ ∧ b1.capacity_ = b.capacity_ ∧
      vector.capacity b1 = vector.capacity b ∧ b1.allocator_ = b.allocator_ ∧
      h1.log = h.log ++ (List.range (b.end_ - b.begin_).toNat).map
        (fun i : Nat => Event.destroy (b.end_ - 1 - (i : Int))) ∧
      (∀ p : Int, b.begin_ ≤ p → p < b.end_ →
        (h1.log.drop h.log.length).count (Event.destroy p) = 1 ∧ h1.mem p = none) ∧
      (∀ p : Int, (p < b.begin_ ∨ b.end_ ≤ p) →
        (h1.log.drop h.log.length).count (Event.destroy p) = 0 ∧ h1.mem p = h.mem p) := by
  obtain ⟨l, m, -, -⟩ := destruct_loop_spec (b.end_ - b.begin_).toNat h b.end_
  have hk : (((b.end_ - b.begin_).toNat : Nat) : Int) = b.end_ - b.begin_ := by omega
  have hinj : Function.Injective (fun i : Nat => Event.destroy (b.end_ - 1 - (i : Int))) := by
    intro i j hij
    simp only [Event.destroy.injEq] at hij
    omega
  have hnd : ((List.range (b.end_ - b.begin_).toNat).map
      (fun i : Nat => Event.destroy (b.end_ - 1 - (i : Int)))).Nodup :=
    (List.nodup_range _).map hinj
  refine ⟨vector_base.destruct_loop (b.end_ - b.begin_).toNat h b.end_,
    { b with end_ := b.begin_ }, ?_, ?_, ?_, rfl, rfl, rfl, rfl, l, ?_, ?_⟩
  · simp [vector.clear, vector_base.clear, vector_base.destruct_at_end, h0]
  · simp [vector.size, toSize]
  · simp [vector.empty]
  · intro p hp1 hp2
    rw [l, List.drop_left, m p, hk]
    refine ⟨List.count_eq_one_of_mem hnd ?_, by simp; omega⟩
    rw [List.mem_map]
    exact ⟨(b.end_ - 1 - p).toNat, List.mem_range.mpr (by omega), by congr 1; omega⟩
  · intro p hp
    rw [l, List.drop_left, m p, hk]
    refine ⟨List.count_eq_zero_of_not_mem ?_, by
      have : ¬ (b.end_ - (b.end_ - b.begin_) ≤ p ∧ p < b.end_) := by omega
      simp only [this, if_false]⟩
    rw [List.mem_map]
    rintro ⟨i, hi, he⟩
    simp only [Event.destroy.injEq] at he
    have := List.mem_range.mp hi
    omega

/-- Instance of C10: `clear()` on `demoA`. -/
theorem clear_spec_witness :
    ∃ h1 b1, vector.clear demoHeap demoA = .ok (h1, b1) ∧
      vector.size b1 = 0 ∧ vector.empty b1 = true ∧
      b1.begin_ = demoA.begin_ ∧ b1.capacity_ = demoA.capacity_ ∧
      vector.capacity b1 = vector.capacity demoA ∧ b1.allocator_ = demoA.allocator_ ∧
      h1.log = demoHeap.log ++ (List.range (demoA.end_ - demoA.begin_).toNat).map
        (fun i : Nat => Event.destroy (demoA.end_ - 1 - (i : Int))) ∧
      (∀ p : Int, demoA.begin_ ≤ p → p < demoA.end_ →
        (h1.log.drop demoHeap.log.length).count (Event.destroy p) = 1 ∧ h1.mem p = none) ∧
      (∀ p : Int, (p < demoA.begin_ ∨ demoA.end_ ≤ p) →
        (h1.log.drop demoHeap.log.length).count (Event.destroy p) = 0 ∧
        h1.mem p = demoHeap.mem p) :=
  clear_spec demoHeap demoA (by decide)

/-- C11: `assign(first, last)` over a source range that holds the sequence `s` and does not
overlap the storage of `v` returns and leaves `v` with `size()` equal to the length of `s`
and `operator[](i) == s_i` for every `i`, whatever `v` held before; the source range is
unchanged. Hypotheses: `v` has `begin_ ≤ end_ ≤ capacity_` and lies in allocated memory, as
does the source; `s` has at most `2^63` elements; no construction throws. -/
theorem assign_range_spec (h : Heap T) (b : vector) (first : Int) (s : List T)
    (hb : h.budget = none) (h0 : b.begin_ ≤ b.end_) (h1 : b.end_ ≤ b.capacity_)
    (hc : b.capacity_ - b.begin_ < 18446744073709551616) (hn : b.capacity_ ≤ h.next)
    (hlen : s.length ≤ 9223372036854775808)
    (hsrc : ∀ (i : Nat) (hi : i < s.length), h.mem (first + i) = some s[i])
    (hln : first + s.length ≤ h.next)
    (hdj : b.capacity_ ≤ first ∨ first + s.length ≤ b.begin_) :
    ∃ h1 b1, vector.assign h b first (first + s.length) = .ok (h1, b1) ∧
      vector.size b1 = s.length ∧
      (∀ (i : Nat) (hi : i < s.length), vector.subscript h1 b1 i = some s[i]) ∧
      (∀ (i : Nat) (hi : i < s.length), h1.mem (first + i) = some s[i]) := by
  obtain ⟨h2, b2, e2, -, -, w2, -, -, sz2, -, -, m2, f2⟩ :=
    assign_ok h b first (first + s.length) hb h0 h1 hc hn (by omega) (by omega)
      (by
        intro j hj
        have hj' : j < s.length := by omega
        rw [hsrc j hj']; rfl)
      hln (by intro a ha1 ha2; omega)
  have hsz := size_cast b2 w2 (by omega)
  refine ⟨h2, b2, e2, by omega, ?_, ?_⟩
  · intro i hi
    rw [subscript_of_mem h2 b2 i w2 (by omega) (by omega), m2 i (by omega)]
    exact hsrc i hi
  · intro i hi
    rw [f2 _ (by omega) (by omega)]
    exact hsrc i hi

/-- Instance of C11: `demoA.assign(first, last)` over the two elements of `demoB`. -/
theorem assign_range_spec_witness :
    ∃ h1 b1, vector.assign demoHeap demoA 5 (5 + ([9, 10] : List Nat).length) = .ok (h1, b1) ∧
      vector.size b1 = ([9, 10] : List Nat).length ∧
      (∀ (i : Nat) (hi : i < ([9, 10] : List Nat).length),
        vector.subscript h1 b1 i = some ([9, 10] : List Nat)[i]) ∧
      (∀ (i : Nat) (hi : i < ([9, 10] : List Nat).length),
        h1.mem (5 + i) = some ([9, 10] : List Nat)[i]) :=
  assign_range_spec demoHeap demoA 5 [9, 10] rfl (by decide) (by decide) (by decide)
    (by decide) (by decide)
    (by
      intro i hi
      have : i = 0 ∨ i = 1 := by simp only [List.length_cons, List.length_nil] at hi; omega
      rcases this with rfl | rfl <;> simp [demoHeap])
    (by decide) (Or.inl (by decide))

/-- C12 (what the code does): `assign(count, value)` returns with the heap and the vector
exactly as they were, so `size()` and the elements are the old ones: whenever `count`
differs from the old `size()`, `size() == count` fails. The body of the function is empty. -/
theorem assign_fill_does_nothing (h : Heap T) (b : vector) (count : Nat) (value : T) :
    vector.assign_fill h b count value = (h, b) ∧
      vector.size (vector.assign_fill h b count value).2 = vector.size b ∧
      vector.contents (vector.assign_fill h b count value).1
        (vector.assign_fill h b count value).2 = vector.contents h b ∧
      (count ≠ vector.size b → vector.size (vector.assign_fill h b count value).2 ≠ count) := by
  refine ⟨rfl, rfl, rfl, ?_⟩
  intro hne heq
  exact hne (by simpa [vector.assign_fill] using heq.symm)

/-- C13 (what the code does): `insert(position, value)` with `position` before `end()`, or
with no spare capacity, returns with the heap and the vector exactly as they were and
without a returned iterator; the rvalue and the fill overloads do so for every input.
Nothing is inserted and no storage is reallocated. -/
theorem insert_inserts_nothing (h : Heap T) (b : vector) (position : wrap_iter) (value : T)
    (n : Nat) (hpos : position.base ≠ b.end_ ∨ b.capacity_ ≤ b.end_) :
    vector.insert h b position value = .ok (h, b, none) ∧
      vector.insert_rvalue h b position value = (h, b, none) ∧
      vector.insert_fill h b position n value = (h, b, none) := by
  refine ⟨?_, rfl, rfl⟩
  unfold vector.insert
  rcases hpos with hp | hc
  · have : ¬ (b.begin_ + (position.base - (vector.begin b).base) = b.end_) := by
      simp only [vector.begin, wrap_iter.base] at hp ⊢; omega
    simp [this]
  · have : ¬ (b.end_ < b.capacity_) := by omega
    simp [this]

/-- Instance of C13: `demoA.insert(demoA.begin(), 5)`, with spare capacity. -/
theorem insert_inserts_nothing_witness :
    vector.insert demoHeap demoA (vector.begin demoA) 5 = .ok (demoHeap, demoA, none) ∧
      vector.insert_rvalue demoHeap demoA (vector.begin demoA) 5 = (demoHeap, demoA, none) ∧
      vector.insert_fill demoHeap demoA (vector.begin demoA) 2 5 = (demoHeap, demoA, none) :=
  insert_inserts_nothing demoHeap demoA (vector.begin demoA) 5 2 (Or.inl (by decide))

/-- C14 (what the code does): pre-decrement of a `wrap_iter` wrapping `p` leaves
`base() == p + 1`, not `p - 1`, and pre-increment followed by pre-decrement leaves
`base() == p + 2`, not `p`: the body of `operator--` is `++iterator_`. -/
theorem pre_decrement_moves_forward (it : wrap_iter) :
    (wrap_iter.pre_decrement it).base = it.base + 1 ∧
      (wrap_iter.pre_decrement it).base ≠ it.base - 1 ∧
      (wrap_iter.pre_decrement (wrap_iter.pre_increment it)).base = it.base + 2 ∧
      wrap_iter.pre_decrement (wrap_iter.pre_increment it) ≠ it := by
  refine ⟨rfl, ?_, ?_, ?_⟩
  · simp only [wrap_iter.pre_decrement, wrap_iter.base]; omega
  · simp only [wrap_iter.pre_decrement, wrap_iter.pre_increment, wrap_iter.base]; omega
  · intro h
    have := congrArg wrap_iter.iterator_ h
    simp only [wrap_iter.pre_decrement, wrap_iter.pre_increment] at this
    omega

/-- C15: every vector state reachable from a returning constructor (default, fill, copy) by
any sequence of `push_back`, `reserve`, `clear`, `assign(first, last)`,
`assign(count, value)` and copy assignment, each returning or throwing, satisfies
`begin_ ≤ end_ ≤ capacity_`, and so `size() ≤ capacity()`. In `Reachable` the counts are
`size_type` values and sizes stay within `2^63` (no object exceeds `PTRDIFF_MAX`). -/
theorem reachable_invariant (b : vector) (hr : Reachable T b) :
    b.begin_ ≤ b.end_ ∧ b.end_ ≤ b.capacity_ ∧ vector.size b ≤ vector.capacity b := by
  obtain ⟨i0, i1, i2⟩ := reachable_inv b hr
  have hsz := size_cast b i0 (by omega)
  have hcp := capacity_cast b (by omega) i2
  exact ⟨i0, i1, by omega⟩

/-- Instance of C15: `vector<int> v; v.push_back(5);`. -/
theorem reachable_invariant_witness :
    Reachable Nat { allocator_ := 0, begin_ := 1, capacity_ := 5, end_ := 2 } ∧
    ((1 : Int) ≤ 2 ∧ (2 : Int) ≤ 5 ∧
      vector.size { allocator_ := 0, begin_ := 1, capacity_ := 5, end_ := 2 } ≤
        vector.capacity { allocator_ := 0, begin_ := 1, capacity_ := 5, end_ := 2 }) :=
  have hr : Reachable Nat { allocator_ := 0, begin_ := 1, capacity_ := 5, end_ := 2 } :=
    Reachable.push_back emptyHeap { allocator_ := 0, begin_ := 1, capacity_ := 5, end_ := 1 }
      (Ref.object 5)
      ({ mem := fun a => if a = 1 then some 5 else none, next := 1, budget := none,
         log := [Event.construct 1] },
       { allocator_ := 0, begin_ := 1, capacity_ := 5, end_ := 2 })
      (Reachable.ctor_default emptyHeap 0) (by decide) (by
        simp [vector.push_back, vector.capacity, vector.size, toSize, construct, emptyHeap,
          Outcome.final, Ref.read])
  ⟨hr, reachable_invariant _ hr⟩

/-- C16 (what the code does): `~vector()` on a vector with `begin_ ≤ end_ ≤ capacity_`
returns after calling `destroy` exactly once on every slot of `[begin_, capacity_)`: once
on each live element, but also once on each slot of the allocated, uninitialised range
`[end_, capacity_)`. The loop of `destroy_elements` runs up to `capacity_`, not `end_`. -/
theorem dtor_destroys_up_to_capacity (h : Heap T) (b : vector)
    (h0 : b.begin_ ≤ b.end_) (h1 : b.end_ ≤ b.capacity_) :
    ∃ h1, vector.dtor h b = .ok h1 ∧
      (∀ p : Int, b.begin_ ≤ p → p < b.end_ →
        (h1.log.drop h.log.length).count (Event.destroy p) = 1) ∧
      (∀ p : Int, b.end_ ≤ p → p < b.capacity_ →
        (h1.log.drop h.log.length).count (Event.destroy p) = 1) := by
  obtain ⟨h2, e2, l2⟩ := vector_dtor_log h b (by omega)
  have hinj : Function.Injective (fun i : Nat => Event.destroy (b.begin_ + (i : Int))) := by
    intro i j hij
    simp only [Event.destroy.injEq] at hij
    omega
  have hnd : ((List.range (b.capacity_ - b.begin_).toNat).map
      (fun i : Nat => Event.destroy (b.begin_ + (i : Int)))).Nodup :=
    (List.nodup_range _).map hinj
  have hcount : ∀ p : Int, b.begin_ ≤ p → p < b.capacity_ →
      (h2.log.drop h.log.length).count (Event.destroy p) = 1 := by
    intro p hp1 hp2
    rw [l2, List.append_assoc, List.drop_left, List.count_append]
    have hz : List.count (Event.destroy p) [Event.deallocate b.begin_ (vector.size b)] = 0 := by
      simp
    rw [hz, Nat.add_zero]
    refine List.count_eq_one_of_mem hnd ?_
    rw [List.mem_map]
    exact ⟨(p - b.begin_).toNat, List.mem_range.mpr (by omega), by congr 1; omega⟩
  exact ⟨h2, e2, fun p hp1 hp2 => hcount p hp1 (by omega), fun p hp1 hp2 => hcount p (by omega) hp2⟩

/-- Instance of C16: `~vector()` on `demoA`; slot 3 lies in `[end_, capacity_)`. -/
theorem dtor_destroys_up_to_capacity_witness :
    ∃ h1, vector.dtor demoHeap demoA = .ok h1 ∧
      (∀ p : Int, demoA.begin_ ≤ p → p < demoA.end_ →
        (h1.log.drop demoHeap.log.length).count (Event.destroy p) = 1) ∧
      (∀ p : Int, demoA.end_ ≤ p → p < demoA.capacity_ →
        (h1.log.drop demoHeap.log.length).count (Event.destroy p) = 1) :=
  dtor_destroys_up_to_capacity demoHeap demoA (by decide) (by decide)

/-- C17 (what the code does): the count passed to `deallocate` is `end_ - begin_`, the
size, not `capacity_ - begin_`. `~vector()` ends with `deallocate(begin_, size())`, and a
reallocating `reserve(n)` releases the old allocation with `deallocate(begin_, size())` as
well; with `end_ < capacity_` this count is smaller than `capacity()`, the count the storage
was allocated with. -/
theorem deallocate_count_is_size (h : Heap T) (b : vector) (n : Nat)
    (hb : h.budget = none) (h0 : b.begin_ ≤ b.end_) (h1 : b.end_ < b.capacity_)
    (hfit : b.capacity_ - b.begin_ < 18446744073709551616)
    (hn : b.capacity_ ≤ h.next) (hl : vector.live h b) (hg : vector.capacity b < n) :
    (∃ h1, vector.dtor h b = .ok h1 ∧
      h1.log.getLast? = some (Event.deallocate b.begin_ (vector.size b))) ∧
    (∃ h2 b2, vector.reserve h b n = .ok (h2, b2) ∧
      h2.log.getLast? = some (Event.deallocate b.begin_ (vector.size b))) ∧
    vector.size b < vector.capacity b := by
  refine ⟨?_, ?_, ?_⟩
  · obtain ⟨h2, e2, l2⟩ := vector_dtor_log h b (by omega)
    exact ⟨h2, e2, by rw [l2, List.getLast?_concat]⟩
  · obtain ⟨h2, e2, -, -, -, -, l2⟩ := reserve_grow h b n hb h0 (by omega) hl (by omega)
    exact ⟨h2, _, e2, by rw [l2, List.getLast?_concat]; rfl⟩
  · have := size_cast b h0 (by omega)
    have := capacity_cast b (by omega) hfit
    omega

/-- Instance of C17: `~vector()` and `reserve(10)` on `demoA` (size 2, capacity 3). -/
theorem deallocate_count_is_size_witness :
    (∃ h1, vector.dtor demoHeap demoA = .ok h1 ∧
      h1.log.getLast? = some (Event.deallocate demoA.begin_ (vector.size demoA))) ∧
    (∃ h2 b2, vector.reserve demoHeap demoA 10 = .ok (h2, b2) ∧
      h2.log.getLast? = some (Event.deallocate demoA.begin_ (vector.size demoA))) ∧
    vector.size demoA < vector.capacity demoA :=
  deallocate_count_is_size demoHeap demoA 10 rfl (by decide) (by decide) (by decide)
    (by decide) demoA_live (by decide)

/-- C18: for `new_last ≤ end_` (in particular for `begin_ ≤ new_last ≤ end_`),
`destruct_at_end(new_last)` returns; it calls `destroy` on the slots `end_ - 1`, ...,
`new_last` in this order, once on each slot of `[new_last, end_)`, which then holds no
object, and on no other slot; it sets `end_ = new_last` and leaves `begin_`, `capacity_`,
the allocator and every slot outside `[new_last, end_)`, so the elements of
`[begin_, new_last)`, unchanged. -/
theorem destruct_at_end_spec (h : Heap T) (b : vector_base) (new_last : Int)
    (h1 : new_last ≤ b.end_) :
    ∃ h1 b1, vector_base.destruct_at_end h b new_last = .ok (h1, b1) ∧
      b1.end_ = new_last ∧ b1.begin_ = b.begin_ ∧ b1.capacity_ = b.capacity_ ∧
      b1.allocator_ = b.allocator_ ∧
      h1.log = h.log ++ (List.range (b.end_ - new_last).toNat).map
        (fun i : Nat => Event.destroy (b.end_ - 1 - (i : Int))) ∧
      (∀ p : Int, new_last ≤ p → p < b.end_ →
        (h1.log.drop h.log.length).count (Event.destroy p) = 1 ∧ h1.mem p = none) ∧
      (∀ p : Int, (p < new_last ∨ b.end_ ≤ p) →
        (h1.log.drop h.log.length).count (Event.destroy p) = 0 ∧ h1.mem p = h.mem p) := by
  obtain ⟨l, m, -, -⟩ := destruct_loop_spec (b.end_ - new_last).toNat h b.end_
  have hk : (((b.end_ - new_last).toNat : Nat) : Int) = b.end_ - new_last := by omega
  have hinj : Function.Injective (fun i : Nat => Event.destroy (b.end_ - 1 - (i : Int))) := by
    intro i j hij
    simp only [Event.destroy.injEq] at hij
    omega
  have hnd : ((List.range (b.end_ - new_last).toNat).map
      (fun i : Nat => Event.destroy (b.end_ - 1 - (i : Int)))).Nodup :=
    (List.nodup_range _).map hinj
  refine ⟨vector_base.destruct_loop (b.end_ - new_last).toNat h b.end_,
    { b with end_ := new_last }, ?_, rfl, rfl, rfl, rfl, l, ?_, ?_⟩
  · simp [vector_base.destruct_at_end, h1]
  · intro p hp1 hp2
    rw [l, List.drop_left, m p, hk]
    refine ⟨List.count_eq_one_of_mem hnd ?_, by
      have : b.end_ - (b.end_ - new_last) ≤ p ∧ p < b.end_ := by omega
      simp only [this, and_self, if_true]⟩
    rw [List.mem_map]
    exact ⟨(b.end_ - 1 - p).toNat, List.mem_range.mpr (by omega), by congr 1; omega⟩
  · intro p hp
    rw [l, List.drop_left, m p, hk]
    refine ⟨List.count_eq_zero_of_not_mem ?_, by
      have : ¬ (b.end_ - (b.end_ - new_last) ≤ p ∧ p < b.end_) := by omega
      simp only [this, if_false]⟩
    rw [List.mem_map]
    rintro ⟨i, hi, he⟩
    simp only [Event.destroy.injEq] at he
    have := List.mem_range.mp hi
    omega

/-- Instance of C18: `destruct_at_end(begin_ + 1)` on `demoA`. -/
theorem destruct_at_end_spec_witness :
    ∃ h1 b1, vector_base.destruct_at_end demoHeap demoA 2 = .ok (h1, b1) ∧
      b1.end_ = 2 ∧ b1.begin_ = demoA.begin_ ∧ b1.capacity_ = demoA.capacity_ ∧
      b1.allocator_ = demoA.allocator_ ∧
      h1.log = demoHeap.log ++ (List.range (demoA.end_ - 2).toNat).map
        (fun i : Nat => Event.destroy (demoA.end_ - 1 - (i : Int))) ∧
      (∀ p : Int, 2 ≤ p → p < demoA.end_ →
        (h1.log.drop demoHeap.log.length).count (Event.destroy p) = 1 ∧ h1.mem p = none) ∧
      (∀ p : Int, (p < 2 ∨ demoA.end_ ≤ p) →
        (h1.log.drop demoHeap.log.length).count (Event.destroy p) = 0 ∧
        h1.mem p = demoHeap.mem p) :=
  destruct_at_end_spec demoHeap demoA 2 (by decide)

/-- C19: `copy_assign_alloc(other)` on a storage base with `begin_ ≤ end_ ≤ capacity_`
returns with the allocator of `other`. When the allocators compared unequal, the trace
gains `destroy` on `end_ - 1`, ..., `begin_` (every live element, which then holds no
object) followed by `deallocate(begin_, capacity_ - begin_)`, and `begin_`, `end_`,
`capacity_` are null afterwards. When they compared equal, the heap (so the elements) and
`begin_`, `end_`, `capacity_` are unchanged. -/
theorem copy_assign_alloc_spec (h : Heap T) (b other : vector_base)
    (h0 : b.begin_ ≤ b.end_) (h1 : b.end_ ≤ b.capacity_)
    (hc : b.capacity_ - b.begin_ < 18446744073709551616) :
    ∃ h1 b1, vector_base.copy_assign_alloc h b other = .ok (h1, b1) ∧
      b1.allocator_ = other.allocator_ ∧
      (b.allocator_ ≠ other.allocator_ →
        b1.begin_ = nullptr ∧ b1.end_ = nullptr ∧ b1.capacity_ = nullptr ∧
        (∃ n : Nat, (n : Int) = b.capacity_ - b.begin_ ∧
          h1.log = h.log ++ (List.range (b.end_ - b.begin_).toNat).map
              (fun i : Nat => Event.destroy (b.end_ - 1 - (i : Int))) ++
            [Event.deallocate b.begin_ n]) ∧
        ∀ p : Int, b.begin_ ≤ p → p < b.end_ → h1.mem p = none) ∧
      (b.allocator_ = other.allocator_ →
        h1 = h ∧ b1.begin_ = b.begin_ ∧ b1.end_ = b.end_ ∧ b1.capacity_ = b.capacity_) := by
  by_cases ha : b.allocator_ = other.allocator_
  · refine ⟨h, { b with allocator_ := other.allocator_ }, ?_, rfl, fun hne => absurd ha hne,
      fun _ => ⟨rfl, rfl, rfl, rfl⟩⟩
    simp [vector_base.copy_assign_alloc, ha]
  · obtain ⟨l, m, -, -⟩ := destruct_loop_spec (b.end_ - b.begin_).toNat h b.end_
    have hk : (((b.end_ - b.begin_).toNat : Nat) : Int) = b.end_ - b.begin_ := by omega
    refine ⟨deallocate (vector_base.destruct_loop (b.end_ - b.begin_).toNat h b.end_) b.begin_
        (toSize (b.capacity_ - b.begin_)),
      { allocator_ := other.allocator_, begin_ := nullptr, capacity_ := nullptr,
        end_ := nullptr }, ?_, rfl, ?_, fun he => absurd he ha⟩
    · simp [vector_base.copy_assign_alloc, ha, vector_base.clear, vector_base.destruct_at_end, h0]
    · intro _
      refine ⟨rfl, rfl, rfl, ⟨toSize (b.capacity_ - b.begin_), ?_, ?_⟩, ?_⟩
      · exact toSize_of_bounds _ (by omega) hc
      · simp [deallocate, l]
      · intro p hp1 hp2
        simp only [deallocate]
        rw [m p, hk]
        have : b.end_ - (b.end_ - b.begin_) ≤ p ∧ p < b.end_ := by omega
        simp only [this, and_self, if_true]

/-- Instance of C19: `demoA.copy_assign_alloc(demoB)`, the allocators being unequal. -/
theorem copy_assign_alloc_spec_witness :
    ∃ h1 b1, vector_base.copy_assign_alloc demoHeap demoA demoB = .ok (h1, b1) ∧
      b1.allocator_ = demoB.allocator_ ∧
      (demoA.allocator_ ≠ demoB.allocator_ →
        b1.begin_ = nullptr ∧ b1.end_ = nullptr ∧ b1.capacity_ = nullptr ∧
        (∃ n : Nat, (n : Int) = demoA.capacity_ - demoA.begin_ ∧
          h1.log = demoHeap.log ++ (List.range (demoA.end_ - demoA.begin_).toNat).map
              (fun i : Nat => Event.destroy (demoA.end_ - 1 - (i : Int))) ++
            [Event.deallocate demoA.begin_ n]) ∧
        ∀ p : Int, demoA.begin_ ≤ p → p < demoA.end_ → h1.mem p = none) ∧
      (demoA.allocator_ = demoB.allocator_ →
        h1 = demoHeap ∧ b1.begin_ = demoA.begin_ ∧ b1.end_ = demoA.end_ ∧
        b1.capacity_ = demoA.capacity_) :=
  copy_assign_alloc_spec demoHeap demoA demoB (by decide) (by decide) (by decide)

/-- C20 (what the code does): for a vector with `end_ < capacity_` (spare capacity),
`insert(end(), value)` with a construction that does not throw returns with `end_` advanced
by one and `begin_`, `capacity_` and every slot of the element heap unchanged: the slot at
the old `size()` is not constructed. When that slot held no object before (it lies in the
uninitialised part of the storage), it holds none afterwards, so `operator[](old size)` does
not yield `value`. -/
theorem insert_at_end_constructs_no_slot (h : Heap T) (b : vector) (value : T)
    (hb : h.budget = none) (hroom : b.end_ < b.capacity_) :
    vector.insert h b (vector.end_iter b) value = .ok (h, { b with end_ := b.end_ + 1 }, none) ∧
      (h.mem b.end_ = none →
        b.begin_ ≤ b.end_ → b.end_ - b.begin_ < 18446744073709551615 →
        vector.subscript h { b with end_ := b.end_ + 1 } (vector.size b) = none) := by
  constructor
  · unfold vector.insert
    have : b.begin_ + ((vector.end_iter b).base - (vector.begin b).base) = b.end_ := by
      simp only [vector.begin, vector.end_iter, wrap_iter.base]; omega
    simp [hroom, this, construct_off_slot, hb]
  · intro hm h0 hs
    have hsz := size_cast b h0 (by omega)
    unfold vector.subscript
    split_ifs
    · have e : b.begin_ + (vector.size b : Int) = b.end_ := by omega
      rw [e]; exact hm
    · rfl

/-- Instance of C20: `demoA.insert(demoA.end(), 5)`; slot 3 held no object and holds none
afterwards. -/
theorem insert_at_end_constructs_no_slot_witness :
    vector.insert demoHeap demoA (vector.end_iter demoA) 5 =
        .ok (demoHeap, { demoA with end_ := demoA.end_ + 1 }, none) ∧
      (demoHeap.mem demoA.end_ = none →
        demoA.begin_ ≤ demoA.end_ → demoA.end_ - demoA.begin_ < 18446744073709551615 →
        vector.subscript demoHeap { demoA with end_ := demoA.end_ + 1 } (vector.size demoA)
          = none) :=
  insert_at_end_constructs_no_slot demoHeap demoA 5 rfl (by decide)

end etl
